import Mathlib

/-!
Verification development for the claude-relay protocol-translation core.

The definitions below are a shallow embedding of the TypeScript sources:
* `packages/backend/src/services/key-pool/key-pool-manager.ts`
  (the JSON-repair utilities `fixSingleQuoteJson`, `safeParseJson`,
  `fixToolCallArguments`, and the `KeyPoolManager` pool registry), and
* `packages/backend/src/routes/admin/providers.ts`
  (the `ClaudeToOpenAITransformer`: request transforms, the non-streaming
  response transform, and the hybrid streaming reconstruction engine).

JavaScript strings are modeled as Lean `String`; `JSON.parse` is modeled by an
executable recursive-descent parser `jsonParse` over the strict JSON grammar,
and `JSON.stringify` by `jsonStringify`.  Regex-based global replacements are
modeled by left-to-right scanners that mirror each concrete pattern.  Thrown
exceptions are modeled by `Option` results.
-/

namespace Relay

/-- JSON values.  Numbers are kept by their source lexeme: no claim below
compares numeric values across distinct lexemes, so float semantics are not
needed. -/
inductive JsonVal where
  | nullV : JsonVal
  | boolV (b : Bool) : JsonVal
  | numV (lexeme : String) : JsonVal
  | strV (s : String) : JsonVal
  | arrV (elems : List JsonVal) : JsonVal
  | objV (fields : List (String × JsonVal)) : JsonVal

/-- The single-quote character (U+0027). -/
def sq : Char := Char.ofNat 39

/-- The sentinel character U+0001 used by `fixSingleQuoteJson`. -/
def sentinelC : Char := Char.ofNat 1

/-- Left curly brace. -/
def lb : Char := Char.ofNat 123

/-- Right curly brace. -/
def rb : Char := Char.ofNat 125

/-- Left curly brace as a one-character string. -/
def lbS : String := String.mk [lb]

/-- Right curly brace as a one-character string. -/
def rbS : String := String.mk [rb]

/-- JSON (ECMA-404 / `JSON.parse`) whitespace: space, tab, line feed,
carriage return. -/
def jsonWsChar (c : Char) : Bool :=
  c = ' ' || c = Char.ofNat 9 || c = Char.ofNat 10 || c = Char.ofNat 13

/-- Drop leading JSON whitespace. -/
def skipWs (cs : List Char) : List Char := cs.dropWhile jsonWsChar

/-- Value of a hexadecimal digit. -/
def hexVal (c : Char) : Option Nat :=
  if '0' ≤ c ∧ c ≤ '9' then some (c.toNat - 48)
  else if 'a' ≤ c ∧ c ≤ 'f' then some (c.toNat - 97 + 10)
  else if 'A' ≤ c ∧ c ≤ 'F' then some (c.toNat - 65 + 10)
  else none

/-- Parse the body of a JSON string literal (after the opening quote),
accumulating decoded characters in reverse.  Returns the decoded string and
the input remaining after the closing quote.  Surrogate `\u` escapes decode
through `Char.ofNat`, which is partial on surrogate code points; no claim
below depends on that corner. -/
def parseStrBody : List Char → List Char → Option (String × List Char)
  | _, [] => none
  | acc, c :: cs =>
    if c = '"' then some (String.mk acc.reverse, cs)
    else if c = '\\' then
      match cs with
      | [] => none
      | e :: cs2 =>
        if e = '"' then parseStrBody ('"' :: acc) cs2
        else if e = '\\' then parseStrBody ('\\' :: acc) cs2
        else if e = '/' then parseStrBody ('/' :: acc) cs2
        else if e = 'b' then parseStrBody (Char.ofNat 8 :: acc) cs2
        else if e = 'f' then parseStrBody (Char.ofNat 12 :: acc) cs2
        else if e = 'n' then parseStrBody (Char.ofNat 10 :: acc) cs2
        else if e = 'r' then parseStrBody (Char.ofNat 13 :: acc) cs2
        else if e = 't' then parseStrBody (Char.ofNat 9 :: acc) cs2
        else if e = 'u' then
          match cs2 with
          | h1 :: h2 :: h3 :: h4 :: cs3 =>
            match hexVal h1, hexVal h2, hexVal h3, hexVal h4 with
            | some a, some b, some c2, some d =>
              parseStrBody (Char.ofNat (((a * 16 + b) * 16 + c2) * 16 + d) :: acc) cs3
            | _, _, _, _ => none
          | _ => none
        else none
    else if c.toNat < 32 then none
    else parseStrBody (c :: acc) cs

/-- Take a maximal run of decimal digits. -/
def takeDigits : List Char → List Char × List Char
  | [] => ([], [])
  | c :: cs =>
    if c.isDigit then
      let p := takeDigits cs
      (c :: p.1, p.2)
    else ([], c :: cs)

/-- Parse the optional fraction part of a JSON number. -/
def parseFrac (cs : List Char) : Option (List Char × List Char) :=
  match cs with
  | c :: rest =>
    if c = '.' then
      let q := takeDigits rest
      if q.1.isEmpty then none else some (c :: q.1, q.2)
    else some ([], cs)
  | [] => some ([], [])

/-- Parse the optional exponent part of a JSON number. -/
def parseExp (cs : List Char) : Option (List Char × List Char) :=
  match cs with
  | c :: rest =>
    if c = 'e' ∨ c = 'E' then
      let sp : List Char × List Char :=
        match rest with
        | s :: r2 => if s = '+' ∨ s = '-' then ([s], r2) else ([], rest)
        | [] => ([], rest)
      let q := takeDigits sp.2
      if q.1.isEmpty then none else some (c :: sp.1 ++ q.1, q.2)
    else some ([], cs)
  | [] => some ([], [])

/-- Parse a JSON number, returning its lexeme. -/
def parseNum (cs : List Char) : Option (List Char × List Char) :=
  let sp : List Char × List Char :=
    match cs with
    | c :: rest => if c = '-' then ([c], rest) else ([], cs)
    | [] => ([], cs)
  let intP := takeDigits sp.2
  if intP.1.isEmpty then none
  else if intP.1.length > 1 ∧ intP.1.headD '0' = '0' then none
  else
    match parseFrac intP.2 with
    | none => none
    | some fr =>
      match parseExp fr.2 with
      | none => none
      | some ex => some (sp.1 ++ intP.1 ++ fr.1 ++ ex.1, ex.2)

mutual

/-- Recursive-descent JSON value parser (strict `JSON.parse` grammar).  The
fuel decreases on every call; `jsonParse` supplies `length + 2`, which is
enough because every fuel unit spent accompanies at least one consumed
character along any recursion path. -/
def parseVal : Nat → List Char → Option (JsonVal × List Char)
  | 0, _ => none
  | Nat.succ fuel, cs =>
    match skipWs cs with
    | [] => none
    | c :: cs1 =>
      if c = lb then parseObjRest fuel cs1 [] true
      else if c = '[' then parseArrRest fuel cs1 [] true
      else if c = '"' then
        match parseStrBody [] cs1 with
        | some (s, rest) => some (JsonVal.strV s, rest)
        | none => none
      else if c = 't' then
        match cs1 with
        | 'r' :: 'u' :: 'e' :: rest => some (JsonVal.boolV true, rest)
        | _ => none
      else if c = 'f' then
        match cs1 with
        | 'a' :: 'l' :: 's' :: 'e' :: rest => some (JsonVal.boolV false, rest)
        | _ => none
      else if c = 'n' then
        match cs1 with
        | 'u' :: 'l' :: 'l' :: rest => some (JsonVal.nullV, rest)
        | _ => none
      else if c = '-' ∨ c.isDigit then
        match parseNum (c :: cs1) with
        | some (lex, rest) => some (JsonVal.numV (String.mk lex), rest)
        | none => none
      else none

/-- Parse the members of an object after the opening brace (`first = true`)
or after a comma (`first = false`). -/
def parseObjRest : Nat → List Char → List (String × JsonVal) → Bool →
    Option (JsonVal × List Char)
  | 0, _, _, _ => none
  | Nat.succ fuel, cs, acc, first =>
    match skipWs cs with
    | [] => none
    | c :: cs1 =>
      if c = rb ∧ first then some (JsonVal.objV acc.reverse, cs1)
      else if c = '"' then
        match parseStrBody [] cs1 with
        | none => none
        | some (key, cs2) =>
          match skipWs cs2 with
          | ':' :: cs3 =>
            match parseVal fuel cs3 with
            | none => none
            | some (v, cs4) =>
              match skipWs cs4 with
              | ',' :: cs5 => parseObjRest fuel cs5 ((key, v) :: acc) false
              | d :: cs5 => if d = rb then some (JsonVal.objV ((key, v) :: acc).reverse, cs5) else none
              | [] => none
          | _ => none
      else none

/-- Parse the elements of an array after the opening bracket (`first = true`)
or after a comma (`first = false`). -/
def parseArrRest : Nat → List Char → List JsonVal → Bool →
    Option (JsonVal × List Char)
  | 0, _, _, _ => none
  | Nat.succ fuel, cs, acc, first =>
    match skipWs cs with
    | [] => none
    | c :: cs1 =>
      if c = ']' ∧ first then some (JsonVal.arrV acc.reverse, cs1)
      else
        match parseVal fuel (c :: cs1) with
        | none => none
        | some (v, cs2) =>
          match skipWs cs2 with
          | ',' :: cs3 => parseArrRest fuel cs3 (v :: acc) false
          | ']' :: cs3 => some (JsonVal.arrV (v :: acc).reverse, cs3)
          | _ => none

end

/-- Model of JavaScript `JSON.parse`: `some v` on success, `none` where
`JSON.parse` throws. -/
def jsonParse (s : String) : Option JsonVal :=
  match parseVal (s.length + 2) s.data with
  | some (v, rest) => if (skipWs rest).isEmpty then some v else none
  | none => none

/-- Whether `JSON.parse` succeeds on `s`. -/
def jsonValid (s : String) : Bool := (jsonParse s).isSome

/-- Hexadecimal digit character for `n < 16`. -/
def hexCh (n : Nat) : Char := if n < 10 then Char.ofNat (48 + n) else Char.ofNat (87 + n)

/-- `JSON.stringify` escaping of one character inside a string literal. -/
def escChar (c : Char) : List Char :=
  if c = '"' then ['\\', '"']
  else if c = '\\' then ['\\', '\\']
  else if c = Char.ofNat 8 then ['\\', 'b']
  else if c = Char.ofNat 9 then ['\\', 't']
  else if c = Char.ofNat 10 then ['\\', 'n']
  else if c = Char.ofNat 12 then ['\\', 'f']
  else if c = Char.ofNat 13 then ['\\', 'r']
  else if c.toNat < 32 then ['\\', 'u', '0', '0', hexCh (c.toNat / 16), hexCh (c.toNat % 16)]
  else [c]

/-- `JSON.stringify` of a string. -/
def quoteStr (s : String) : String :=
  String.mk ('"' :: (s.data.map escChar).flatten ++ ['"'])

mutual

/-- Model of `JSON.stringify` on JSON values (no indentation). -/
def jsonStringify : JsonVal → String
  | JsonVal.nullV => "null"
  | JsonVal.boolV true => "true"
  | JsonVal.boolV false => "false"
  | JsonVal.numV lex => lex
  | JsonVal.strV s => quoteStr s
  | JsonVal.arrV l => "[" ++ stringifyElems l ++ "]"
  | JsonVal.objV fs => lbS ++ stringifyFields fs ++ rbS

/-- Comma-joined serialization of array elements. -/
def stringifyElems : List JsonVal → String
  | [] => ""
  | [v] => jsonStringify v
  | v :: rest => jsonStringify v ++ "," ++ stringifyElems rest

/-- Comma-joined serialization of object fields. -/
def stringifyFields : List (String × JsonVal) → String
  | [] => ""
  | [(k, v)] => quoteStr k ++ ":" ++ jsonStringify v
  | (k, v) :: rest => quoteStr k ++ ":" ++ jsonStringify v ++ "," ++ stringifyFields rest

end

/-- JavaScript `\s` / `String.prototype.trim` whitespace.  ASCII whitespace
plus NBSP and BOM; the rarer Unicode space classes are omitted (no claim
depends on them). -/
def jsWsChar (c : Char) : Bool :=
  c = ' ' || c = Char.ofNat 9 || c = Char.ofNat 10 || c = Char.ofNat 13 ||
  c = Char.ofNat 11 || c = Char.ofNat 12 || c = Char.ofNat 160 || c = Char.ofNat 65279

/-- Model of `String.prototype.trim`. -/
def jsTrim (s : String) : String :=
  String.mk (((s.data.dropWhile jsWsChar).reverse.dropWhile jsWsChar).reverse)

/-- Whether a string starts with the given character (the source only ever
checks one-character prefixes). -/
def startsWithChar (s : String) (c : Char) : Bool :=
  match s.data with
  | d :: _ => d = c
  | [] => false

/-- Whether a string ends with the given character. -/
def endsWithChar (s : String) (c : Char) : Bool :=
  match s.data.reverse with
  | d :: _ => d = c
  | [] => false

/-- Replace every occurrence of the two-character sequence backslash +
single-quote by the sentinel: the `.replace(/\\'/g, ...)` step. -/
def replEscSq : List Char → List Char
  | c :: d :: rest =>
    if c = '\\' ∧ d = sq then sentinelC :: replEscSq rest
    else c :: replEscSq (d :: rest)
  | l => l

/-- Restore each sentinel as an escaped double quote (two characters):
the `.replace(/\u0001/g, ...)` step. -/
def restoreSentinel (cs : List Char) : List Char :=
  (cs.map (fun c => if c = sentinelC then ['\\', '"'] else [c])).flatten

/-- Replace every single quote by a double quote: the blanket
`.replace(/'/g, ...)` fallback. -/
def blanketQuotes (cs : List Char) : List Char :=
  cs.map (fun c => if c = sq then '"' else c)

/-- Match a single-quoted span with no embedded single quote, mirroring the
regex piece matching a quote, then any non-quote characters, then a quote.
Returns the body and the rest of the input. -/
def matchQuoted : List Char → Option (List Char × List Char)
  | c :: cs =>
    if c = sq then
      let p := cs.span (fun x => x != sq)
      match p.2 with
      | d :: rest => if d = sq then some (p.1, rest) else none
      | [] => none
    else none
  | [] => none

/-- Try the object-key pattern (whitespace, quoted span, whitespace, colon)
at the current position; on success return the rewritten text (quotes doubled,
whitespace and colon preserved) and the rest. -/
def tryKey (cs : List Char) : Option (List Char × List Char) :=
  let p := cs.span jsWsChar
  match matchQuoted p.2 with
  | some (body, cs2) =>
    let q := cs2.span jsWsChar
    match q.2 with
    | c :: cs3 =>
      if c = ':' then some (p.1 ++ '"' :: body ++ '"' :: q.1 ++ [':'], cs3) else none
    | [] => none
  | none => none

/-- Try a lead-character pattern (the literal `x`, whitespace, quoted span)
at the current position; on success return the rewritten text and the rest.
Instantiated at colon, open bracket, comma and open brace for the value,
array-item and nested-object patterns. -/
def tryLead (x : Char) (cs : List Char) : Option (List Char × List Char) :=
  match cs with
  | c :: cs1 =>
    if c = x then
      let p := cs1.span jsWsChar
      match matchQuoted p.2 with
      | some (body, cs2) => some (c :: p.1 ++ '"' :: body ++ ['"'], cs2)
      | none => none
    else none
  | [] => none

/-- Global left-to-right regex replacement: at each position try the pattern;
on a match emit its rewritten text and resume after the match, otherwise copy
one character.  Fuel bounds the scan (a successful match always consumes at
least one character, so `length + 1` fuel suffices). -/
def scanReplace (step : List Char → Option (List Char × List Char)) :
    Nat → List Char → List Char
  | 0, cs => cs
  | _, [] => []
  | Nat.succ fuel, c :: cs =>
    match step (c :: cs) with
    | some (rep, rest) => rep ++ scanReplace step fuel rest
    | none => c :: scanReplace step fuel cs

/-- The pattern-substitution pipeline of `fixSingleQuoteJson` (key-pool copy):
trim, mark pre-escaped single quotes, rewrite single-quoted keys, values,
array items (after an open bracket or a comma) and items after an open brace,
then restore the sentinel as an escaped double quote. -/
def pipelineFix (s : String) : String :=
  let cs0 := (jsTrim s).data
  let cs1 := replEscSq cs0
  let cs2 := scanReplace tryKey (cs1.length + 1) cs1
  let cs3 := scanReplace (tryLead ':') (cs2.length + 1) cs2
  let cs4 := scanReplace (tryLead '[') (cs3.length + 1) cs3
  let cs5 := scanReplace (tryLead ',') (cs4.length + 1) cs4
  let cs6 := scanReplace (tryLead lb) (cs5.length + 1) cs5
  String.mk (restoreSentinel cs6)

/-- The blanket fallback applied to the pipeline result. -/
def blanketFix (s : String) : String := String.mk (blanketQuotes s.data)

/-- Embedding of `fixSingleQuoteJson` (the spec's `repairQuoting`):
return valid JSON unchanged; return non-JSON-shaped input unchanged;
otherwise run the pattern pipeline, validate, fall back to the blanket
substitution (guarded by a brace-delimited shape check on the pipeline
result), and on total failure return the original string. -/
def fixSingleQuoteJson (jsonStr : String) : String :=
  if jsonStr = "" then jsonStr
  else if jsonValid jsonStr then jsonStr
  else
    let trimmed := jsTrim jsonStr
    if ¬ (startsWithChar trimmed lb ∨ startsWithChar trimmed '[') then jsonStr
    else
      let fixed := pipelineFix jsonStr
      if jsonValid fixed then fixed
      else if startsWithChar fixed lb ∧ endsWithChar fixed rb then
        let aggressiveFix := blanketFix fixed
        if jsonValid aggressiveFix then aggressiveFix else jsonStr
      else jsonStr

/-- Embedding of `safeParseJson` (the spec's `safeParse`): strict parse,
then repair-and-parse only when the repair changed the string, then the
caller-supplied default. -/
def safeParseJson (jsonStr : String) (defaultValue : JsonVal) : JsonVal :=
  if jsonStr = "" then defaultValue
  else
    match jsonParse jsonStr with
    | some v => v
    | none =>
      let fixed := fixSingleQuoteJson jsonStr
      if fixed ≠ jsonStr then
        match jsonParse fixed with
        | some v => v
        | none => defaultValue
      else defaultValue

/-- Embedding of `fixToolCallArguments`: safe parse with the empty object as
the default. -/
def fixToolCallArguments (argsStr : String) : JsonVal :=
  safeParseJson argsStr (JsonVal.objV [])

/-- Truthiness of an optional JavaScript string (`undefined` and the empty
string are falsy). -/
def strTruthy : Option String → Bool
  | none => false
  | some s => s ≠ ""

/-- JavaScript truthiness of a JSON value (used for `input || {}`). -/
def jsTruthyJson : JsonVal → Bool
  | JsonVal.nullV => false
  | JsonVal.boolV b => b
  | JsonVal.strV s => s ≠ ""
  | JsonVal.numV lex =>
    ¬ ((lex.data.takeWhile (fun c => c ≠ 'e' ∧ c ≠ 'E')).all
        (fun c => ¬ (c.isDigit ∧ c ≠ '0')))
  | JsonVal.arrV _ => true
  | JsonVal.objV _ => true

/-- Claude stop reasons used by the transformer, plus the raw string
`error` that `handleStreamError` writes into its fallback events. -/
inductive StopReason where
  | endTurn : StopReason
  | maxTokens : StopReason
  | toolUse : StopReason
  | errorReason : StopReason
deriving DecidableEq

/-- Embedding of `mapFinishReason`: null and the empty string are falsy and
map to `end_turn`; the four known reasons map per the table; everything else
falls back to `end_turn`. -/
def mapFinishReason (reason : Option String) : StopReason :=
  match reason with
  | none => StopReason.endTurn
  | some r =>
    if r = "" then StopReason.endTurn
    else if r = "stop" then StopReason.endTurn
    else if r = "length" then StopReason.maxTokens
    else if r = "tool_calls" then StopReason.toolUse
    else if r = "content_filter" then StopReason.endTurn
    else StopReason.endTurn

/-- OpenAI tool-choice directives produced by `transformToolChoice`. -/
inductive OAToolChoice where
  | tcNone : OAToolChoice
  | tcAuto : OAToolChoice
  | tcFunction (name : String) : OAToolChoice
deriving DecidableEq

/-- Inputs reaching `transformToolChoice`: a string, an object with a `type`
field and an optional `name` property, or any non-string non-object value. -/
inductive ToolChoiceInput where
  | strI (s : String) : ToolChoiceInput
  | objI (type : String) (name : Option String) : ToolChoiceInput
  | otherI : ToolChoiceInput

/-- Embedding of `transformToolChoice`. -/
def transformToolChoice : ToolChoiceInput → OAToolChoice
  | ToolChoiceInput.strI s => if s = "none" then OAToolChoice.tcNone else OAToolChoice.tcAuto
  | ToolChoiceInput.objI ty name =>
    match name with
    | some n => if ty = "tool" then OAToolChoice.tcFunction n
                else if ty = "auto" then OAToolChoice.tcAuto else OAToolChoice.tcNone
    | none => if ty = "auto" then OAToolChoice.tcAuto else OAToolChoice.tcNone
  | ToolChoiceInput.otherI => OAToolChoice.tcAuto

/-- Image sources of a Claude `image` block. -/
inductive ImgSource where
  | base64 (mediaType : String) (data : String) : ImgSource
  | urlSrc (url : String) : ImgSource

/-- Payload of a Claude `tool_result` block: a plain string or structured
content (serialized with `JSON.stringify` on translation). -/
inductive TRContent where
  | strC (s : String) : TRContent
  | jsonC (v : JsonVal) : TRContent

/-- Claude request content blocks. -/
inductive ContentBlock where
  | textB (text : String) : ContentBlock
  | imageB (source : ImgSource) : ContentBlock
  | toolUseB (id : String) (name : String) (input : JsonVal) : ContentBlock
  | toolResultB (toolUseId : String) (content : TRContent) : ContentBlock

/-- Message content: a plain string or an array of blocks. -/
inductive MsgContent where
  | strM (s : String) : MsgContent
  | blocksM (blocks : List ContentBlock) : MsgContent

/-- An inbound Claude message. -/
structure ClaudeMsg where
  role : String
  content : MsgContent

/-- OpenAI content items produced for a rich message. -/
inductive OAItem where
  | textI (text : String) : OAItem
  | imageUrlI (url : String) : OAItem

/-- A provider-side tool call entry. -/
structure OAToolCall where
  id : String
  name : String
  arguments : String
deriving DecidableEq

/-- OpenAI chat messages produced by `transformMessage`.  An empty `richM`
item list serializes as the empty-string content in the source. -/
inductive OAMessage where
  | plainM (role : String) (content : String) : OAMessage
  | toolM (content : String) (toolCallId : String) : OAMessage
  | richM (role : String) (content : List OAItem) (toolCalls : List OAToolCall) : OAMessage

/-- The translated payload of a `tool_result` block. -/
def toolResultPayload : TRContent → String
  | TRContent.strC s => s
  | TRContent.jsonC v => jsonStringify v

/-- The loop body of `transformMessage` over a content-block array:
accumulates content items and tool calls, and returns early with a `tool`
message on the first `tool_result` block. -/
def transformBlocks (role : String) :
    List ContentBlock → List OAItem → List OAToolCall → OAMessage
  | [], content, toolCalls =>
    OAMessage.richM role content (if role = "assistant" then toolCalls else [])
  | ContentBlock.textB t :: rest, content, toolCalls =>
    transformBlocks role rest (content ++ [OAItem.textI t]) toolCalls
  | ContentBlock.imageB src :: rest, content, toolCalls =>
    match src with
    | ImgSource.base64 mediaType data =>
      transformBlocks role rest
        (content ++ [OAItem.imageUrlI ("data:" ++ mediaType ++ ";base64," ++ data)]) toolCalls
    | ImgSource.urlSrc _ => transformBlocks role rest content toolCalls
  | ContentBlock.toolUseB id name input :: rest, content, toolCalls =>
    if name = "" then transformBlocks role rest content toolCalls
    else
      transformBlocks role rest content
        (toolCalls ++ [⟨id, name,
          jsonStringify (if jsTruthyJson input then input else JsonVal.objV [])⟩])
  | ContentBlock.toolResultB toolUseId trc :: _, _, _ =>
    OAMessage.toolM (toolResultPayload trc) toolUseId

/-- Embedding of `transformMessage`: string content becomes a plain message;
array content runs the block loop above with the role coerced to
user/assistant. -/
def transformMessage (message : ClaudeMsg) : OAMessage :=
  let role := if message.role = "assistant" then "assistant" else "user"
  match message.content with
  | MsgContent.strM s => OAMessage.plainM role s
  | MsgContent.blocksM blocks => transformBlocks role blocks [] []

/-- A tool-call delta inside a streamed chunk.  Option fields model absent
(`undefined`) properties; empty strings are falsy where the source tests
truthiness. -/
structure ToolCallDelta where
  index : Option Nat
  id : Option String
  name : Option String
  arguments : Option String
deriving DecidableEq

/-- The index a tool-call delta addresses (`toolCall.index || 0`). -/
def deltaIdx (tc : ToolCallDelta) : Nat := tc.index.getD 0

/-- The `delta` of a streamed chunk choice.  A present-but-empty
`tool_calls` array is still truthy in the source. -/
structure ChunkDelta where
  content : Option String
  toolCalls : Option (List ToolCallDelta)

/-- A streamed chunk choice. -/
structure ChunkChoice where
  delta : ChunkDelta
  finishReason : Option String

/-- A streamed provider chunk (only `choices[0]` is ever read). -/
structure Chunk where
  model : String
  choices : List ChunkChoice

/-- A fully accumulated tool call (`{id, function: {name, arguments}}`). -/
structure ToolCallAcc where
  id : String
  name : String
  arguments : String
deriving DecidableEq

/-- Lookup in the insertion-ordered map modeling `Map<number, ...>`. -/
def mapGet (m : List (Nat × ToolCallAcc)) (i : Nat) : Option ToolCallAcc :=
  match m.find? (fun p => p.1 = i) with
  | some p => some p.2
  | none => none

/-- In-place update of an existing key; appends when the key is absent
(JavaScript `Map.set` semantics). -/
def mapSet : List (Nat × ToolCallAcc) → Nat → ToolCallAcc → List (Nat × ToolCallAcc)
  | [], i, v => [(i, v)]
  | (j, w) :: rest, i, v =>
    if j = i then (i, v) :: rest else (j, w) :: mapSet rest i v

/-- The default id recorded on first sight of a tool-call index
(`toolCall.id || tool_<index>`). -/
def deltaId (tc : ToolCallDelta) (idx : Nat) : String :=
  match tc.id with
  | some s => if s ≠ "" then s else "tool_" ++ toString idx
  | none => "tool_" ++ toString idx

/-- Overwrite the accumulated name when a truthy name fragment arrives. -/
def nameStep (acc : String) (tc : ToolCallDelta) : String :=
  match tc.name with
  | some n => if n ≠ "" then n else acc
  | none => acc

/-- Append a truthy argument fragment to the accumulated argument string. -/
def argsStep (acc : String) (tc : ToolCallDelta) : String :=
  match tc.arguments with
  | some a => if a ≠ "" then acc ++ a else acc
  | none => acc

/-- Apply one delta to an existing accumulator entry: overwrite the name
when truthy, append truthy argument fragments. -/
def applyDelta (cur : ToolCallAcc) (tc : ToolCallDelta) : ToolCallAcc :=
  let cur1 :=
    match tc.name with
    | some n => if n ≠ "" then { cur with name := n } else cur
    | none => cur
  match tc.arguments with
  | some a => if a ≠ "" then { cur1 with arguments := cur1.arguments ++ a } else cur1
  | none => cur1

/-- One tool-call delta folded into the accumulator map, mirroring the inner
loop of `reconstructCompletionFromChunks`: create the entry on first sight of
an index (id defaulting to `tool_<index>`), then overwrite the name once a
truthy name arrives and append truthy argument fragments. -/
def accumToolCall (m : List (Nat × ToolCallAcc)) (tc : ToolCallDelta) :
    List (Nat × ToolCallAcc) :=
  let idx := deltaIdx tc
  let m1 :=
    if (mapGet m idx).isSome then m
    else m ++ [(idx, ⟨deltaId tc idx, "", ""⟩)]
  match mapGet m1 idx with
  | none => m1
  | some cur => mapSet m1 idx (applyDelta cur tc)

/-- Accumulator state of the chunk fold in
`reconstructCompletionFromChunks`. -/
structure ReconState where
  content : String
  callMap : List (Nat × ToolCallAcc)
  finishReason : Option String

/-- One chunk folded into the reconstruction state. -/
def reconStep (st : ReconState) (ch : Chunk) : ReconState :=
  match ch.choices.head? with
  | none => st
  | some choice =>
    let st1 :=
      match choice.delta.content with
      | some c => if c ≠ "" then { st with content := st.content ++ c } else st
      | none => st
    let st2 :=
      match choice.delta.toolCalls with
      | some tcs => { st1 with callMap := tcs.foldl accumToolCall st1.callMap }
      | none => st1
    match choice.finishReason with
    | some fr => if fr ≠ "" then { st2 with finishReason := some fr } else st2
    | none => st2

/-- JavaScript sparse-array assignment `arr[i] = v`: positions between the
current length and `i` become holes (`none`). -/
def setSparse (arr : List (Option ToolCallAcc)) (i : Nat) (v : ToolCallAcc) :
    List (Option ToolCallAcc) :=
  if i < arr.length then arr.set i (some v)
  else arr ++ List.replicate (i - arr.length) none ++ [some v]

/-- The `toolCalls[index] = toolCall` loop over the accumulator map. -/
def buildSparse (m : List (Nat × ToolCallAcc)) : List (Option ToolCallAcc) :=
  m.foldl (fun arr p => setSparse arr p.1 p.2) []

/-- The reconstructed non-streaming completion (only the fields the
transformer reads).  `toolCalls` keeps the sparse array, holes included. -/
structure Completion where
  model : String
  content : Option String
  toolCalls : Option (List (Option ToolCallAcc))
  finishReason : Option String

/-- Embedding of `reconstructCompletionFromChunks`; `none` models the throw
on an empty chunk list. -/
def reconstructCompletionFromChunks (chunks : List Chunk) : Option Completion :=
  match chunks.head? with
  | none => none
  | some firstChunk =>
    let st := chunks.foldl reconStep ⟨"", [], none⟩
    let toolCalls := buildSparse st.callMap
    some
      { model := firstChunk.model
        content := if st.content = "" then none else some st.content
        toolCalls := if toolCalls.length > 0 then some toolCalls else none
        finishReason := st.finishReason }

/-- Claude response content blocks. -/
inductive ClaudeBlock where
  | textB (text : String) : ClaudeBlock
  | toolUseB (id : String) (name : String) (input : JsonVal) : ClaudeBlock

/-- The Claude-format response message assembled by `transformResponse`
(fresh id and usage counters omitted: the claims do not mention them). -/
structure ClaudeMessage where
  model : String
  content : List ClaudeBlock
  stopReason : StopReason

/-- Collapse a list of options, failing on any `none` (iterating a sparse
array hole dereferences `undefined` and throws in the source). -/
def seqOpts : List (Option ToolCallAcc) → Option (List ToolCallAcc)
  | [] => some []
  | none :: _ => none
  | some v :: rest =>
    match seqOpts rest with
    | some l => some (v :: l)
    | none => none

/-- Embedding of `transformResponse`: text block when content is truthy, one
`tool_use` block per provider tool call with its argument string passed
through `fixToolCallArguments` (empty argument strings default to the empty
object literal first), stop reason via `mapFinishReason`.  `none` models a
thrown `TypeError` (missing choice, or a hole in the tool-call array). -/
def transformResponse (response : Completion) : Option ClaudeMessage :=
  match response.toolCalls with
  | none =>
    some
      { model := response.model
        content :=
          match response.content with
          | some c => if c ≠ "" then [ClaudeBlock.textB c] else []
          | none => []
        stopReason := mapFinishReason response.finishReason }
  | some arr =>
    match seqOpts arr with
    | none => none
    | some calls =>
      some
        { model := response.model
          content :=
            (match response.content with
             | some c => if c ≠ "" then [ClaudeBlock.textB c] else []
             | none => []) ++
            calls.map (fun tc =>
              ClaudeBlock.toolUseB tc.id tc.name
                (fixToolCallArguments (if tc.arguments = "" then lbS ++ rbS else tc.arguments)))
          stopReason := mapFinishReason response.finishReason }

/-- Kinds of canonical content blocks. -/
inductive BlockKind where
  | textK : BlockKind
  | toolK : BlockKind
deriving DecidableEq

/-- Payload of a `content_block_start` event (tool-use input in serialized
form). -/
inductive StartBlock where
  | textS (text : String) : StartBlock
  | toolUseS (id : String) (name : String) (inputJson : String) : StartBlock
deriving DecidableEq

/-- Payload of a `content_block_delta` event. -/
inductive DeltaEv where
  | textDelta (text : String) : DeltaEv
  | inputJsonDelta (pjson : String) : DeltaEv
deriving DecidableEq

/-- Canonical stream events (SSE payloads in structured form). -/
inductive Event where
  | messageStart (model : String) (stopReason : Option StopReason) : Event
  | contentBlockStart (index : Nat) (block : StartBlock) : Event
  | contentBlockDelta (index : Nat) (delta : DeltaEv) : Event
  | contentBlockStop (index : Nat) : Event
  | messageDelta (stopReason : Option StopReason) : Event
  | messageStop : Event
deriving DecidableEq

/-- The kind of a started block. -/
def startKind : StartBlock → BlockKind
  | StartBlock.textS _ => BlockKind.textK
  | StartBlock.toolUseS _ _ _ => BlockKind.toolK

/-- The kind a delta belongs to. -/
def deltaKind : DeltaEv → BlockKind
  | DeltaEv.textDelta _ => BlockKind.textK
  | DeltaEv.inputJsonDelta _ => BlockKind.toolK

/-- The three events `outputClaudeMessageAsStream` emits for one content
block at a given index. -/
def blockEvents (idx : Nat) : ClaudeBlock → List Event
  | ClaudeBlock.textB t =>
    [Event.contentBlockStart idx (StartBlock.textS t),
     Event.contentBlockDelta idx (DeltaEv.textDelta t),
     Event.contentBlockStop idx]
  | ClaudeBlock.toolUseB id name input =>
    let inputJson := jsonStringify (if jsTruthyJson input then input else JsonVal.objV [])
    [Event.contentBlockStart idx (StartBlock.toolUseS id name inputJson),
     Event.contentBlockDelta idx (DeltaEv.inputJsonDelta inputJson),
     Event.contentBlockStop idx]

/-- Embedding of `outputClaudeMessageAsStream`: message start (carrying the
message and its stop reason), the per-block triples with increasing indices,
message delta, message stop. -/
def outputClaudeMessageAsStream (msg : ClaudeMessage) : List Event :=
  Event.messageStart msg.model (some msg.stopReason) ::
    (msg.content.enum.map (fun p => blockEvents p.1 p.2)).flatten ++
    [Event.messageDelta (some msg.stopReason), Event.messageStop]

/-- The `message_start` event emitted on the first chunk only. -/
def chunkStartEvs (messageStarted : Bool) (model : String) : List Event :=
  if messageStarted then [] else [Event.messageStart model none]

/-- The content events of one chunk choice: on the first truthy content a
`content_block_start`, then the `text_delta`; returns the updated
`contentStarted` flag. -/
def chunkContentEvs (contentStarted : Bool) (contentIndex : Nat) :
    Option String → List Event × Bool
  | some c =>
    if c ≠ "" then
      ((if contentStarted then []
        else [Event.contentBlockStart contentIndex (StartBlock.textS "")]) ++
       [Event.contentBlockDelta contentIndex (DeltaEv.textDelta c)], true)
    else ([], contentStarted)
  | none => ([], contentStarted)

/-- The finish events of one chunk choice: on a truthy finish reason, a
`content_block_stop` when a block is open, then `message_delta` (mapped stop
reason) and `message_stop`. -/
def chunkFinishEvs (contentStarted : Bool) (contentIndex : Nat) :
    Option String → List Event
  | some fr =>
    if fr ≠ "" then
      (if contentStarted then [Event.contentBlockStop contentIndex] else []) ++
      [Event.messageDelta (some (mapFinishReason (some fr))), Event.messageStop]
    else []
  | none => []

/-- Loop of `outputChunksAsStream` over the buffered chunks, carrying the
`messageStarted` and `contentStarted` flags and the (never-incremented)
content index. -/
def outputChunksLoop : List Chunk → Bool → Bool → Nat → List Event
  | [], _, _, _ => []
  | ch :: rest, messageStarted, contentStarted, contentIndex =>
    let startEvs := chunkStartEvs messageStarted ch.model
    match ch.choices.head? with
    | none => startEvs ++ outputChunksLoop rest true contentStarted contentIndex
    | some choice =>
      let contentP := chunkContentEvs contentStarted contentIndex choice.delta.content
      let finishEvs := chunkFinishEvs contentP.2 contentIndex choice.finishReason
      startEvs ++ contentP.1 ++ finishEvs ++
        outputChunksLoop rest true contentP.2 contentIndex

/-- Embedding of `outputChunksAsStream`. -/
def outputChunksAsStream (chunks : List Chunk) : List Event :=
  outputChunksLoop chunks false false 0

/-- Embedding of the fallback events `handleStreamError` enqueues before
surfacing the failure. -/
def handleStreamErrorEvents : List Event :=
  [Event.messageStart "unknown" (some StopReason.errorReason),
   Event.messageDelta (some StopReason.errorReason),
   Event.messageStop]

/-- Whether any buffered chunk carries a (truthy) `tool_calls` delta — the
detection in the collection phase of `transformStreamResponse`. -/
def hasToolCalls (chunks : List Chunk) : Bool :=
  chunks.any (fun ch =>
    match ch.choices.head? with
    | some c => c.delta.toolCalls.isSome
    | none => false)

/-- Embedding of the branch phase of `transformStreamResponse`: with tool
calls, reconstruct and re-emit through the non-streaming transform (any
thrown error reaching the catch produces the fallback events); without tool
calls, re-emit the buffered chunks incrementally. -/
def transformStream (chunks : List Chunk) : List Event :=
  if hasToolCalls chunks then
    match reconstructCompletionFromChunks chunks with
    | none => handleStreamErrorEvents
    | some comp =>
      match transformResponse comp with
      | none => handleStreamErrorEvents
      | some msg => outputClaudeMessageAsStream msg
  else outputChunksAsStream chunks

/-- The truthy text content one chunk contributes (empty when absent). -/
def chunkText (ch : Chunk) : String :=
  match ch.choices.head? with
  | some c =>
    match c.delta.content with
    | some s => if s ≠ "" then s else ""
    | none => ""
  | none => ""

/-- The tool-call deltas one chunk carries (empty when absent). -/
def chunkDeltas (ch : Chunk) : List ToolCallDelta :=
  match ch.choices.head? with
  | some c => c.delta.toolCalls.getD []
  | none => []

/-- The tool-call deltas of all buffered chunks, flattened in arrival
order. -/
def allDeltas (chunks : List Chunk) : List ToolCallDelta :=
  (chunks.map chunkDeltas).flatten

/-- The truthy text contents of the buffered chunks, in arrival order. -/
def textsOf (chunks : List Chunk) : List String :=
  chunks.filterMap (fun ch =>
    match ch.choices.head? with
    | some c =>
      match c.delta.content with
      | some s => if s ≠ "" then some s else none
      | none => none
    | none => none)

/-- One step of the finish-reason fold: keep the last truthy finish
reason. -/
def lastFinishStep (acc : Option String) (ch : Chunk) : Option String :=
  match ch.choices.head? with
  | some c =>
    match c.finishReason with
    | some fr => if fr ≠ "" then some fr else acc
    | none => acc
  | none => acc

/-- The last truthy finish reason among the buffered chunks. -/
def lastFinish (chunks : List Chunk) : Option String :=
  chunks.foldl lastFinishStep none

/-- Direct per-index specification: the id recorded for index `i` is taken
from the first delta addressed to `i` (defaulting to `tool_<i>`). -/
def idAt (i : Nat) (ds : List ToolCallDelta) : String :=
  match (ds.filter (fun tc => deltaIdx tc = i)).head? with
  | some tc => deltaId tc i
  | none => "tool_" ++ toString i

/-- Direct per-index specification: the name for index `i` is the last
truthy name fragment addressed to `i`. -/
def nameAt (i : Nat) (ds : List ToolCallDelta) : String :=
  (ds.filter (fun tc => deltaIdx tc = i)).foldl nameStep ""

/-- Direct per-index specification: the argument string for index `i` is the
concatenation of the truthy argument fragments addressed to `i`, in arrival
order. -/
def argsAt (i : Nat) (ds : List ToolCallDelta) : String :=
  (ds.filter (fun tc => deltaIdx tc = i)).foldl argsStep ""

/-- One step of the first-occurrence index fold. -/
def keysStep (ks : List Nat) (tc : ToolCallDelta) : List Nat :=
  if deltaIdx tc ∈ ks then ks else ks ++ [deltaIdx tc]

/-- The accumulator entry the per-index specification predicts. -/
def accAt (ds : List ToolCallDelta) (i : Nat) : ToolCallAcc :=
  ⟨idAt i ds, nameAt i ds, argsAt i ds⟩

/-- The distinct tool-call indices in first-occurrence order. -/
def keysOf (ds : List ToolCallDelta) : List Nat :=
  ds.foldl keysStep []

/-- Count of leading `content_block_delta` events with the given index and
kind, and the remaining events. -/
def splitDeltas (i : Nat) (k : BlockKind) : List Event → Nat × List Event
  | Event.contentBlockDelta j d :: rest =>
    if j = i ∧ deltaKind d = k then
      let p := splitDeltas i k rest
      (p.1 + 1, p.2)
    else (0, Event.contentBlockDelta j d :: rest)
  | l => (0, l)

/-- Index-ordering check: the next block index must exceed the previous
one. -/
def idxOk (lastIdx : Option Nat) (i : Nat) : Bool :=
  match lastIdx with
  | some l => decide (l < i)
  | none => true

/-- Protocol check after `message_start`: complete blocks (start, one or more
matching deltas, stop, indices strictly increasing, no text block after a
tool block), then exactly a `message_delta` and a terminating
`message_stop`. -/
def validTail : Nat → Bool → Option Nat → List Event → Bool
  | 0, _, _, _ => false
  | Nat.succ fuel, seenTool, lastIdx, evs =>
    match evs with
    | [Event.messageDelta _, Event.messageStop] => true
    | Event.contentBlockStart i sb :: rest =>
      let k := startKind sb
      if k = BlockKind.textK ∧ seenTool then false
      else if idxOk lastIdx i = false then false
      else
        let p := splitDeltas i k rest
        if p.1 = 0 then false
        else
          match p.2 with
          | Event.contentBlockStop j :: rest2 =>
            if j = i then validTail fuel (seenTool || k = BlockKind.toolK) (some i) rest2
            else false
          | _ => false
    | _ => false

/-- The protocol-validity predicate of the canonical event grammar: exactly
one leading `message_start`, well-formed content blocks with text blocks
before tool-use blocks, then `message_delta` and `message_stop`. -/
def validStream : List Event → Bool
  | Event.messageStart _ _ :: rest => validTail (rest.length + 1) false none rest
  | _ => false

/-- Concatenated payloads of all emitted `text_delta` events. -/
def textDeltasOf (evs : List Event) : List String :=
  evs.filterMap (fun e =>
    match e with
    | Event.contentBlockDelta _ (DeltaEv.textDelta t) => some t
    | _ => none)

/-- Concatenation of a list of strings (in order). -/
def concatAll (l : List String) : String := l.foldr (fun a b => a ++ b) ""

/-- The text content of each buffered chunk, the empty string when absent. -/
def chunkContents (chunks : List Chunk) : List String :=
  chunks.map (fun ch =>
    match ch.choices.head? with
    | some c => c.delta.content.getD ""
    | none => "")

/-- The single finish-free text chunk of the witness turn. -/
def demoTextBody : List Chunk := [⟨"m", [⟨⟨some "Hel", none⟩, none⟩]⟩]

/-- The closing text chunk of the witness turn. -/
def demoTextLast : Chunk := ⟨"m", [⟨⟨some "lo", none⟩, some "stop"⟩]⟩

/-- A two-chunk text-only turn used as a concrete witness input. -/
def demoTextChunks : List Chunk :=
  [⟨"m", [⟨⟨some "Hel", none⟩, none⟩]⟩,
   ⟨"m", [⟨⟨some "lo", none⟩, some "stop"⟩]⟩]

/-- A text chunk whose provider stream ends without any finish reason. -/
def demoNoFinishChunks : List Chunk :=
  [⟨"m", [⟨⟨some "hi", none⟩, none⟩]⟩]

/-- A streamed tool-call turn: text, then a tool-call delta opening index 0
with a single-quoted argument fragment, then the closing fragment and the
finish reason. -/
def demoToolChunks : List Chunk :=
  [⟨"m", [⟨⟨some "Let me check.", none⟩, none⟩]⟩,
   ⟨"m", [⟨⟨none, some [⟨some 0, some "call_9", some "get_weather", some "\x7b\x27q\x27: "⟩]⟩,
          none⟩]⟩,
   ⟨"m", [⟨⟨none, some [⟨some 0, none, none, some "1\x7d"⟩]⟩, some "tool_calls"⟩]⟩]

/-- A tool-call delta addressing index 1 with no index 0 in the turn: the
sparse tool-call array gets a hole. -/
def demoHoleChunks : List Chunk :=
  [⟨"m", [⟨⟨none, some [⟨some 1, some "call_1", some "f", some "\x7b\x7d"⟩]⟩,
          some "tool_calls"⟩]⟩]

/-- Whether a chunk carries a truthy finish reason on its first choice. -/
def chunkFinish (ch : Chunk) : Bool :=
  match ch.choices.head? with
  | some c =>
    match c.finishReason with
    | some fr => fr ≠ ""
    | none => false
  | none => false

/-- Closed form of the text events a run of finish-free chunks emits, given
the `contentStarted` flag: an opening `content_block_start` before the first
delta when no block is open yet, then one `text_delta` per truthy content;
also returns the resulting flag. -/
def textEvents (cs : Bool) : List String → List Event × Bool
  | [] => ([], cs)
  | t :: rest =>
    let p := textEvents true rest
    ((if cs then [] else [Event.contentBlockStart 0 (StartBlock.textS "")]) ++
      Event.contentBlockDelta 0 (DeltaEv.textDelta t) :: p.1, p.2)

/-- Whether a Claude content-block sequence has no text block at or after a
tool block (the claim's text-before-tool ordering), as a running check. -/
def goodBlocks : Bool → List ClaudeBlock → Bool
  | _, [] => true
  | seenTool, ClaudeBlock.textB _ :: rest => !seenTool && goodBlocks seenTool rest
  | _, ClaudeBlock.toolUseB _ _ _ :: rest => goodBlocks true rest

/-- Key-pool kinds: the factory builds a Gemini pool for Google providers
and a generic pool otherwise. -/
inductive PoolKind where
  | gemini : PoolKind
  | generic : PoolKind
deriving DecidableEq

/-- Provider protocol families accepted by the factory. -/
inductive ProviderType where
  | openai : ProviderType
  | google : ProviderType
deriving DecidableEq

/-- A key pool instance (identity modeled by provider id and kind). -/
structure BaseKeyPool where
  providerId : String
  kind : PoolKind
deriving DecidableEq

/-- Embedding of `createPool`. -/
def createPool (providerId : String) (providerType : ProviderType) : BaseKeyPool :=
  match providerType with
  | ProviderType.google => ⟨providerId, PoolKind.gemini⟩
  | ProviderType.openai => ⟨providerId, PoolKind.generic⟩

/-- The `KeyPoolManager` state: its insertion-ordered `pools` map. -/
structure KeyPoolManager where
  pools : List (String × BaseKeyPool)

/-- Lookup in the pools map. -/
def poolsGet (m : KeyPoolManager) (providerId : String) : Option BaseKeyPool :=
  match m.pools.find? (fun p => p.1 = providerId) with
  | some p => some p.2
  | none => none

/-- Embedding of `getOrCreatePool`: return the cached pool when present,
otherwise create one from the provider type and cache it. -/
def getOrCreatePool (m : KeyPoolManager) (providerId : String)
    (providerType : ProviderType) : BaseKeyPool × KeyPoolManager :=
  match poolsGet m providerId with
  | some pool => (pool, m)
  | none =>
    let pool := createPool providerId providerType
    (pool, ⟨m.pools ++ [(providerId, pool)]⟩)

theorem jsonValid_empty_false : jsonValid "" = false := by decide

/-- On already-valid JSON, the repair function returns its input unchanged. -/
theorem fixSingleQuoteJson_of_valid (t : String) (h : jsonValid t = true) :
    fixSingleQuoteJson t = t := by
  by_cases he : t = ""
  · rw [fixSingleQuoteJson, if_pos he]
  · rw [fixSingleQuoteJson, if_neg he, if_pos h]

/-- C5: `safeParse(s, default)` returns exactly what strict JSON parsing of
`s` returns whenever `s` is strictly valid JSON; only on strict-parse failure
does it attempt the quote repair and parse the repaired string; when that
also fails it returns the caller-supplied default — the empty object when
used for tool-call arguments. -/
theorem safeParseJson_spec (s : String) (d : JsonVal) :
    (jsonValid s = true → jsonParse s = some (safeParseJson s d)) ∧
    (jsonValid s = false →
      safeParseJson s d =
        match jsonParse (fixSingleQuoteJson s) with
        | some v => v
        | none => d) ∧
    fixToolCallArguments s = safeParseJson s (JsonVal.objV []) := by
  refine ⟨?_, ?_, rfl⟩
  · intro h
    have hne : s ≠ "" := by
      intro he
      rw [he, jsonValid_empty_false] at h
      cases h
    rw [jsonValid] at h
    obtain ⟨v, hv⟩ := Option.isSome_iff_exists.mp h
    rw [safeParseJson, if_neg hne, hv]
  · intro h
    rw [jsonValid] at h
    have hp : jsonParse s = none := by
      cases hjp : jsonParse s with
      | none => rfl
      | some v => rw [hjp] at h; cases h
    by_cases he : s = ""
    · subst he
      rfl
    · rw [safeParseJson, if_neg he, hp]
      by_cases hf : fixSingleQuoteJson s = s
      · rw [hf, hp]
        simp
      · simp only [ne_eq, hf, not_false_eq_true, if_true]

/-- C5 witness: on strictly valid input the strict parse result is
returned. -/
theorem safeParseJson_spec_witness :
    jsonParse "[1]" = some (safeParseJson "[1]" (JsonVal.objV [])) :=
  (safeParseJson_spec "[1]" (JsonVal.objV [])).1 rfl

/-- C6: the repair function never raises outward: input that does not look
JSON-shaped (after trimming it starts with neither a brace nor a bracket) is
returned unchanged — in particular "hello world" — and when the pattern
pipeline and the blanket quote-substitution fallback both fail to produce
parseable JSON, the original string is returned unchanged. -/
theorem fixSingleQuoteJson_never_raises (s : String) :
    (¬ (startsWithChar (jsTrim s) lb ∨ startsWithChar (jsTrim s) '[') →
      fixSingleQuoteJson s = s) ∧
    fixSingleQuoteJson "hello world" = "hello world" ∧
    (jsonValid (pipelineFix s) = false →
      jsonValid (blanketFix (pipelineFix s)) = false →
      fixSingleQuoteJson s = s) := by
  refine ⟨?_, by decide, ?_⟩
  · intro hshape
    by_cases he : s = ""
    · rw [fixSingleQuoteJson, if_pos he]
    · rw [fixSingleQuoteJson, if_neg he]
      by_cases hv : jsonValid s = true
      · rw [if_pos hv]
      · rw [if_neg hv, if_pos hshape]
  · intro h1 h2
    by_cases he : s = ""
    · rw [fixSingleQuoteJson, if_pos he]
    · rw [fixSingleQuoteJson, if_neg he]
      by_cases hv : jsonValid s = true
      · rw [if_pos hv]
      · rw [if_neg hv]
        by_cases hshape : startsWithChar (jsTrim s) lb ∨ startsWithChar (jsTrim s) '['
        · rw [if_neg (not_not_intro hshape)]
          rw [if_neg (by simp [h1])]
          by_cases hbr : startsWithChar (pipelineFix s) lb ∧ endsWithChar (pipelineFix s) rb
          · rw [if_pos hbr, if_neg (by simp [h2])]
          · rw [if_neg hbr]
        · rw [if_pos hshape]

/-- C6 witness: a brace-opened string that no repair can fix is returned
unchanged. -/
theorem fixSingleQuoteJson_never_raises_witness :
    fixSingleQuoteJson "\x7bbad" = "\x7bbad" :=
  (fixSingleQuoteJson_never_raises "\x7bbad").2.2 rfl rfl

/-- C7: the repair function is idempotent wherever it succeeds: when the
repaired output parses as valid JSON, applying the repair twice yields the
same result as applying it once. -/
theorem fixSingleQuoteJson_idem (s : String)
    (h : jsonValid (fixSingleQuoteJson s) = true) :
    fixSingleQuoteJson (fixSingleQuoteJson s) = fixSingleQuoteJson s :=
  fixSingleQuoteJson_of_valid _ h

/-- C7 witness: idempotence at a single-quoted object literal whose repair
succeeds. -/
theorem fixSingleQuoteJson_idem_witness :
    fixSingleQuoteJson (fixSingleQuoteJson "\x7b\x27a\x27: 1\x7d") =
      fixSingleQuoteJson "\x7b\x27a\x27: 1\x7d" :=
  fixSingleQuoteJson_idem "\x7b\x27a\x27: 1\x7d" (by decide)

/-- C3: the finish-reason mapping is total and deterministic: stop maps to
end_turn, length to max_tokens, tool_calls to tool_use, content_filter to
end_turn, and every unrecognized or absent value defaults to end_turn. -/
theorem mapFinishReason_total :
    mapFinishReason none = StopReason.endTurn ∧
    mapFinishReason (some "stop") = StopReason.endTurn ∧
    mapFinishReason (some "length") = StopReason.maxTokens ∧
    mapFinishReason (some "tool_calls") = StopReason.toolUse ∧
    mapFinishReason (some "content_filter") = StopReason.endTurn ∧
    ∀ s : String, s ∉ ["stop", "length", "tool_calls", "content_filter"] →
      mapFinishReason (some s) = StopReason.endTurn := by
  refine ⟨rfl, rfl, rfl, rfl, rfl, ?_⟩
  intro s hs
  simp only [mapFinishReason]
  split_ifs with h0 h1 h2 h3 h4 <;> first | rfl | (subst_vars; simp at hs)

/-- C3 witness: an unrecognized finish reason defaults to end_turn. -/
theorem mapFinishReason_total_witness :
    mapFinishReason (some "eos") = StopReason.endTurn :=
  mapFinishReason_total.2.2.2.2.2 "eos" (by decide)

/-- C8 counterexample: an object-typed tool choice of unrecognized type
(here type "any" with no tool name) maps to "none", not to "auto" as the
claim states. -/
theorem transformToolChoice_unrecognized_not_auto :
    transformToolChoice (ToolChoiceInput.objI "any" none) = OAToolChoice.tcNone ∧
    OAToolChoice.tcNone ≠ OAToolChoice.tcAuto :=
  ⟨rfl, by decide⟩

/-- C8 amended: the string "none" maps to "none" and any other string to
"auto"; an object of type "tool" carrying a name maps to a forced
function-call directive; any other object maps to "auto" exactly when its
type is "auto" and to "none" otherwise; non-string non-object input defaults
to "auto". -/
theorem transformToolChoice_spec :
    (∀ s, transformToolChoice (ToolChoiceInput.strI s) =
      if s = "none" then OAToolChoice.tcNone else OAToolChoice.tcAuto) ∧
    (∀ ty n, transformToolChoice (ToolChoiceInput.objI ty (some n)) =
      if ty = "tool" then OAToolChoice.tcFunction n
      else if ty = "auto" then OAToolChoice.tcAuto else OAToolChoice.tcNone) ∧
    (∀ ty, transformToolChoice (ToolChoiceInput.objI ty none) =
      if ty = "auto" then OAToolChoice.tcAuto else OAToolChoice.tcNone) ∧
    transformToolChoice ToolChoiceInput.otherI = OAToolChoice.tcAuto :=
  ⟨fun _ => rfl, fun _ _ => rfl, fun _ => rfl, rfl⟩

/-- Early return of the block loop on the first `tool_result` block,
whatever was accumulated before it. -/
theorem transformBlocks_toolResult (r : String) (post : List ContentBlock)
    (tid : String) (trc : TRContent) :
    ∀ (pre : List ContentBlock) (content : List OAItem) (toolCalls : List OAToolCall),
      (∀ b ∈ pre, ∀ t c, b ≠ ContentBlock.toolResultB t c) →
      transformBlocks r (pre ++ ContentBlock.toolResultB tid trc :: post) content toolCalls =
        OAMessage.toolM (toolResultPayload trc) tid := by
  intro pre
  induction pre with
  | nil => intro content toolCalls _; rfl
  | cons b rest ih =>
    intro content toolCalls h
    have hrest : ∀ b2 ∈ rest, ∀ t c, b2 ≠ ContentBlock.toolResultB t c :=
      fun b2 hb2 => h b2 (List.mem_cons_of_mem _ hb2)
    cases b with
    | textB t =>
      simp only [List.cons_append, transformBlocks]
      exact ih _ _ hrest
    | imageB src =>
      cases src with
      | base64 mt dat =>
        simp only [List.cons_append, transformBlocks]
        exact ih _ _ hrest
      | urlSrc u =>
        simp only [List.cons_append, transformBlocks]
        exact ih _ _ hrest
    | toolUseB id name input =>
      simp only [List.cons_append, transformBlocks]
      by_cases hn : name = ""
      · rw [if_pos hn]
        exact ih _ _ hrest
      · rw [if_neg hn]
        exact ih _ _ hrest
    | toolResultB t c =>
      exact absurd rfl (h _ (List.mem_cons_self _ _) t c)

/-- C9: a message whose content array contains a `tool_result` block
transforms to a single provider message of role "tool" carrying the result
payload and the correlating `tool_use` id, and every other block in the same
array — before and after the tool_result — is discarded. -/
theorem transformMessage_toolResult (role : String) (pre post : List ContentBlock)
    (tid : String) (trc : TRContent)
    (hpre : ∀ b ∈ pre, ∀ t c, b ≠ ContentBlock.toolResultB t c) :
    transformMessage
        ⟨role, MsgContent.blocksM (pre ++ ContentBlock.toolResultB tid trc :: post)⟩ =
      OAMessage.toolM (toolResultPayload trc) tid := by
  simp only [transformMessage]
  exact transformBlocks_toolResult _ post tid trc pre [] [] hpre

/-- C9 witness: a mixed array with text before and after the tool_result. -/
theorem transformMessage_toolResult_witness :
    transformMessage
        ⟨"user", MsgContent.blocksM
          [ContentBlock.textB "a",
           ContentBlock.toolResultB "call_1" (TRContent.strC "ok"),
           ContentBlock.textB "b"]⟩ =
      OAMessage.toolM "ok" "call_1" :=
  transformMessage_toolResult "user" [ContentBlock.textB "a"] [ContentBlock.textB "b"]
    "call_1" (TRContent.strC "ok")
    (by
      intro b hb t c
      rcases List.mem_singleton.mp hb with rfl
      intro hh
      cases hh)

/-- Find-first over an appended list when the first part has no match. -/
theorem find?_append_of_none {α : Type} (p : α → Bool) (l1 l2 : List α)
    (h : l1.find? p = none) : (l1 ++ l2).find? p = l2.find? p := by
  induction l1 with
  | nil => rfl
  | cons a rest ih =>
    rw [List.find?_cons] at h
    cases hpa : p a with
    | false =>
      rw [hpa] at h
      simp only [List.cons_append, List.find?_cons, hpa]
      exact ih h
    | true => rw [hpa] at h; cases h

/-- C10: once a pool exists for a provider id, every subsequent
`getOrCreatePool` call returns the cached instance and leaves the pool map
unchanged regardless of the provider-type argument; the type only shapes the
first, creating call, so the pool kind created first persists. -/
theorem getOrCreatePool_spec (m : KeyPoolManager) (id : String) :
    (∀ p, poolsGet m id = some p →
      ∀ t, getOrCreatePool m id t = (p, m)) ∧
    (poolsGet m id = none → ∀ t1 t2,
      (getOrCreatePool (getOrCreatePool m id t1).2 id t2).1 = createPool id t1 ∧
      (getOrCreatePool (getOrCreatePool m id t1).2 id t2).2 = (getOrCreatePool m id t1).2) := by
  constructor
  · intro p h t
    rw [getOrCreatePool, h]
  · intro h t1 t2
    have hm : m.pools.find? (fun p => p.1 = id) = none := by
      rw [poolsGet] at h
      cases hf : m.pools.find? (fun p => p.1 = id) with
      | none => rfl
      | some q => rw [hf] at h; cases h
    have hstep : getOrCreatePool m id t1 =
        (createPool id t1, ⟨m.pools ++ [(id, createPool id t1)]⟩) := by
      rw [getOrCreatePool, h]
    have hlook : poolsGet ⟨m.pools ++ [(id, createPool id t1)]⟩ id =
        some (createPool id t1) := by
      rw [poolsGet]
      rw [find?_append_of_none _ _ _ hm]
      simp [List.find?_cons]
    rw [hstep]
    constructor
    · rw [getOrCreatePool, hlook]
    · rw [getOrCreatePool, hlook]

/-- C10 witness: creating with type google then asking with type openai
returns the Gemini pool created first. -/
theorem getOrCreatePool_spec_witness :
    (getOrCreatePool (getOrCreatePool ⟨[]⟩ "prov" ProviderType.google).2
        "prov" ProviderType.openai).1 = createPool "prov" ProviderType.google :=
  ((getOrCreatePool_spec ⟨[]⟩ "prov").2 rfl ProviderType.google ProviderType.openai).1

theorem textDeltasOf_append (a b : List Event) :
    textDeltasOf (a ++ b) = textDeltasOf a ++ textDeltasOf b := by
  simp [textDeltasOf]

theorem textDeltasOf_chunkStart (ms : Bool) (m : String) :
    textDeltasOf (chunkStartEvs ms m) = [] := by
  cases ms <;> rfl

theorem textDeltasOf_chunkFinish (cs : Bool) (i : Nat) (ofr : Option String) :
    textDeltasOf (chunkFinishEvs cs i ofr) = [] := by
  cases ofr with
  | none => rfl
  | some fr =>
    by_cases hfr : fr = ""
    · simp [chunkFinishEvs, hfr, textDeltasOf]
    · cases cs <;> simp [chunkFinishEvs, hfr, textDeltasOf]

theorem textDeltasOf_chunkContent (cs : Bool) (i : Nat) (oc : Option String) :
    textDeltasOf (chunkContentEvs cs i oc).1 =
      (match oc with
       | some s => if s ≠ "" then [s] else []
       | none => []) := by
  cases oc with
  | none => rfl
  | some c =>
    by_cases hc : c = ""
    · simp [chunkContentEvs, hc, textDeltasOf]
    · cases cs <;> simp [chunkContentEvs, hc, textDeltasOf]

theorem outputChunksLoop_textDeltas (chunks : List Chunk) :
    ∀ (ms cs : Bool) (i : Nat),
      textDeltasOf (outputChunksLoop chunks ms cs i) = textsOf chunks := by
  induction chunks with
  | nil => intro ms cs i; rfl
  | cons ch rest ih =>
    intro ms cs i
    cases hch : ch.choices.head? with
    | none =>
      simp only [outputChunksLoop, hch, textDeltasOf_append, textDeltasOf_chunkStart,
        List.nil_append]
      rw [ih]
      simp [textsOf, hch]
    | some choice =>
      simp only [outputChunksLoop, hch, textDeltasOf_append, textDeltasOf_chunkStart,
        textDeltasOf_chunkFinish, textDeltasOf_chunkContent, List.nil_append,
        List.append_nil]
      rw [ih]
      simp only [textsOf, List.filterMap_cons, hch]
      cases hoc : choice.delta.content with
      | none => simp
      | some c => by_cases hc : c = "" <;> simp [hc]

theorem empty_append_str (s : String) : "" ++ s = s := by
  cases s with
  | mk data => rfl

theorem concatAll_textsOf (chunks : List Chunk) :
    concatAll (textsOf chunks) = concatAll (chunkContents chunks) := by
  induction chunks with
  | nil => rfl
  | cons ch rest ih =>
    cases hch : ch.choices.head? with
    | none =>
      simp only [textsOf, chunkContents, List.filterMap_cons, List.map_cons, hch]
      show concatAll (textsOf rest) = concatAll ("" :: chunkContents rest)
      show concatAll (textsOf rest) = "" ++ concatAll (chunkContents rest)
      rw [empty_append_str, ih]
    | some choice =>
      simp only [textsOf, chunkContents, List.filterMap_cons, List.map_cons, hch]
      cases hoc : choice.delta.content with
      | none =>
        show concatAll (textsOf rest) = "" ++ concatAll (chunkContents rest)
        rw [empty_append_str, ih]
      | some c =>
        by_cases hc : c = ""
        · subst hc
          simp only [ne_eq, not_true_eq_false, if_false]
          show concatAll (textsOf rest) = "" ++ concatAll (chunkContents rest)
          rw [empty_append_str, ih]
        · simp only [ne_eq, hc, not_false_eq_true, if_true, Option.getD_some]
          show c ++ concatAll (textsOf rest) = c ++ concatAll (chunkContents rest)
          rw [ih]

/-- C4: for a streaming turn with no buffered tool-call delta, the engine
re-emits the buffered chunks incrementally: the emitted `text_delta`
payloads are exactly the chunks' truthy text contents in arrival order, and
their concatenation equals the concatenation of the chunks' text content. -/
theorem noToolCalls_stream_text (chunks : List Chunk)
    (h : hasToolCalls chunks = false) :
    transformStream chunks = outputChunksAsStream chunks ∧
    textDeltasOf (transformStream chunks) = textsOf chunks ∧
    concatAll (textDeltasOf (transformStream chunks)) =
      concatAll (chunkContents chunks) := by
  have hts : transformStream chunks = outputChunksAsStream chunks := by
    rw [transformStream, h]
    simp
  refine ⟨hts, ?_, ?_⟩
  · rw [hts]
    exact outputChunksLoop_textDeltas chunks false false 0
  · rw [hts]
    show concatAll (textDeltasOf (outputChunksLoop chunks false false 0)) = _
    rw [outputChunksLoop_textDeltas chunks false false 0]
    exact concatAll_textsOf chunks

/-- C4 witness: a concrete two-chunk text turn. -/
theorem noToolCalls_stream_text_witness :
    textDeltasOf (transformStream demoTextChunks) = textsOf demoTextChunks :=
  (noToolCalls_stream_text demoTextChunks rfl).2.1

theorem validStream_error_events : validStream handleStreamErrorEvents = true := by decide

theorem blockEvents_length (i : Nat) (b : ClaudeBlock) : (blockEvents i b).length = 3 := by
  cases b <;> rfl

theorem flatten_blocks_length (blocks : List ClaudeBlock) :
    ∀ i, (((List.enumFrom i blocks).map (fun p => blockEvents p.1 p.2)).flatten).length =
      3 * blocks.length := by
  induction blocks with
  | nil => intro i; rfl
  | cons b rest ih =>
    intro i
    simp only [List.enumFrom, List.map_cons, List.flatten_cons, List.length_append,
      List.length_cons, blockEvents_length, ih (i + 1)]
    ring

theorem blockEvents_text (i : Nat) (t : String) :
    blockEvents i (ClaudeBlock.textB t) =
      [Event.contentBlockStart i (StartBlock.textS t),
       Event.contentBlockDelta i (DeltaEv.textDelta t),
       Event.contentBlockStop i] := rfl

theorem blockEvents_tool (i : Nat) (id name : String) (input : JsonVal) :
    blockEvents i (ClaudeBlock.toolUseB id name input) =
      [Event.contentBlockStart i (StartBlock.toolUseS id name
         (jsonStringify (if jsTruthyJson input then input else JsonVal.objV []))),
       Event.contentBlockDelta i (DeltaEv.inputJsonDelta
         (jsonStringify (if jsTruthyJson input then input else JsonVal.objV []))),
       Event.contentBlockStop i] := rfl

theorem validTail_blocks (blocks : List ClaudeBlock) :
    ∀ (f : Nat) (seenTool : Bool) (lastIdx : Option Nat) (i : Nat) (r : Option StopReason),
      goodBlocks seenTool blocks = true →
      (match lastIdx with | some l => l < i | none => True) →
      blocks.length + 1 ≤ f →
      validTail f seenTool lastIdx
        (((List.enumFrom i blocks).map (fun p => blockEvents p.1 p.2)).flatten ++
          [Event.messageDelta r, Event.messageStop]) = true := by
  induction blocks with
  | nil =>
    intro f seenTool lastIdx i r _ _ hf
    cases f with
    | zero => omega
    | succ f2 => rfl
  | cons b rest ih =>
    intro f seenTool lastIdx i r hg hlt hf
    cases f with
    | zero => omega
    | succ f2 =>
      have hidx : idxOk lastIdx i = true := by
        cases lastIdx with
        | none => rfl
        | some l => simpa [idxOk] using hlt
      cases b with
      | textB t =>
        simp only [goodBlocks, Bool.and_eq_true, Bool.not_eq_true'] at hg
        obtain ⟨hst, hgr⟩ := hg
        subst hst
        simp only [List.enumFrom, List.map_cons, List.flatten_cons, blockEvents_text,
          List.cons_append, validTail, startKind, splitDeltas, deltaKind]
        rw [hidx]
        have hrec := ih f2 false (some i) (i + 1) r hgr (Nat.lt_succ_self i)
          (by simp only [List.length_cons] at hf; omega)
        simpa using hrec
      | toolUseB id name input =>
        simp only [goodBlocks] at hg
        simp only [List.enumFrom, List.map_cons, List.flatten_cons, blockEvents_tool,
          List.cons_append, validTail, startKind, splitDeltas, deltaKind]
        rw [hidx]
        have hrec := ih f2 true (some i) (i + 1) r hg (Nat.lt_succ_self i)
          (by simp only [List.length_cons] at hf; omega)
        simpa using hrec

theorem validStream_outputClaude (msg : ClaudeMessage)
    (hg : goodBlocks false msg.content = true) :
    validStream (outputClaudeMessageAsStream msg) = true := by
  simp only [outputClaudeMessageAsStream, validStream]
  have henum : msg.content.enum = List.enumFrom 0 msg.content := rfl
  rw [henum]
  apply validTail_blocks msg.content _ false none 0 _ hg trivial
  simp only [List.append_eq, List.length_append, flatten_blocks_length msg.content 0]
  omega

theorem goodBlocks_tools (calls : List ToolCallAcc) :
    ∀ st : Bool,
      goodBlocks st (calls.map (fun tc =>
        ClaudeBlock.toolUseB tc.id tc.name
          (fixToolCallArguments
            (if tc.arguments = "" then lbS ++ rbS else tc.arguments)))) = true := by
  induction calls with
  | nil => intro st; rfl
  | cons c rest ih =>
    intro st
    simp only [List.map_cons, goodBlocks]
    exact ih true

theorem transformResponse_goodBlocks (comp : Completion) (msg : ClaudeMessage)
    (h : transformResponse comp = some msg) :
    goodBlocks false msg.content = true := by
  cases htc : comp.toolCalls with
  | none =>
    simp only [transformResponse, htc] at h
    injection h with h
    subst h
    cases hc : comp.content with
    | none => rfl
    | some c =>
      by_cases hcc : c = "" <;> simp [goodBlocks, hc, hcc]
  | some arr =>
    simp only [transformResponse, htc] at h
    cases hseq : seqOpts arr with
    | none =>
      simp only [hseq] at h
      exact Option.noConfusion h
    | some calls =>
      simp only [hseq] at h
      injection h with h
      subst h
      cases hc : comp.content with
      | none =>
        simpa [goodBlocks] using goodBlocks_tools calls false
      | some c =>
        by_cases hcc : c = ""
        · simpa [goodBlocks, hcc] using goodBlocks_tools calls false
        · simpa [goodBlocks, hcc] using goodBlocks_tools calls false

theorem hasToolCalls_stream_valid (chunks : List Chunk)
    (h : hasToolCalls chunks = true) :
    validStream (transformStream chunks) = true := by
  rw [transformStream, if_pos h]
  cases hrc : reconstructCompletionFromChunks chunks with
  | none => exact validStream_error_events
  | some comp =>
    cases htr : transformResponse comp with
    | none =>
      simp only [htr]
      exact validStream_error_events
    | some msg =>
      simp only [htr]
      exact validStream_outputClaude msg (transformResponse_goodBlocks comp msg htr)

theorem textEvents_true (ts : List String) :
    textEvents true ts =
      (ts.map (fun t => Event.contentBlockDelta 0 (DeltaEv.textDelta t)), true) := by
  induction ts with
  | nil => rfl
  | cons t rest ih => simp [textEvents, ih]

theorem outputChunksLoop_nil (ms cs : Bool) (i : Nat) :
    outputChunksLoop [] ms cs i = [] := rfl

theorem outputChunksLoop_cons_none (ch : Chunk) (rest : List Chunk) (ms cs : Bool)
    (i : Nat) (hch : ch.choices.head? = none) :
    outputChunksLoop (ch :: rest) ms cs i =
      chunkStartEvs ms ch.model ++ outputChunksLoop rest true cs i := by
  simp only [outputChunksLoop, hch]

theorem outputChunksLoop_cons_some (ch : Chunk) (rest : List Chunk) (ms cs : Bool)
    (i : Nat) (choice : ChunkChoice) (hch : ch.choices.head? = some choice) :
    outputChunksLoop (ch :: rest) ms cs i =
      chunkStartEvs ms ch.model ++
        ((chunkContentEvs cs i choice.delta.content).1 ++
          (chunkFinishEvs (chunkContentEvs cs i choice.delta.content).2 i
              choice.finishReason ++
            outputChunksLoop rest true (chunkContentEvs cs i choice.delta.content).2 i)) := by
  simp only [outputChunksLoop, hch]
  rw [List.append_assoc, List.append_assoc]

theorem loop_msgStart (ch : Chunk) (rest : List Chunk) (cs : Bool) (i : Nat) :
    outputChunksLoop (ch :: rest) false cs i =
      Event.messageStart ch.model none :: outputChunksLoop (ch :: rest) true cs i := by
  cases hch : ch.choices.head? with
  | none =>
    rw [outputChunksLoop_cons_none ch rest false cs i hch,
      outputChunksLoop_cons_none ch rest true cs i hch]
    rfl
  | some choice =>
    rw [outputChunksLoop_cons_some ch rest false cs i choice hch,
      outputChunksLoop_cons_some ch rest true cs i choice hch]
    rfl

theorem loop_body_closed (last : Chunk) :
    ∀ (body : List Chunk) (cs : Bool),
      (∀ ch ∈ body, chunkFinish ch = false) →
      outputChunksLoop (body ++ [last]) true cs 0 =
        (textEvents cs (textsOf body)).1 ++
          outputChunksLoop [last] true (textEvents cs (textsOf body)).2 0 := by
  intro body
  induction body with
  | nil => intro cs _; rfl
  | cons ch rest ih =>
    intro cs hb
    have hhd := hb ch (List.mem_cons_self _ _)
    have hrest : ∀ c ∈ rest, chunkFinish c = false :=
      fun c hc => hb c (List.mem_cons_of_mem _ hc)
    cases hch : ch.choices.head? with
    | none =>
      have hts : textsOf (ch :: rest) = textsOf rest := by
        simp [textsOf, List.filterMap_cons, hch]
      rw [List.cons_append, outputChunksLoop_cons_none ch (rest ++ [last]) true cs 0 hch,
        hts, ih cs hrest]
      rfl
    | some choice =>
      have hfin : chunkFinishEvs (chunkContentEvs cs 0 choice.delta.content).2 0
          choice.finishReason = [] := by
        simp only [chunkFinish, hch] at hhd
        cases hof : choice.finishReason with
        | none => rfl
        | some fr =>
          simp only [hof, ne_eq, decide_not, Bool.not_eq_false', decide_eq_true_eq] at hhd
          simp [chunkFinishEvs, hhd]
      rw [List.cons_append, outputChunksLoop_cons_some ch (rest ++ [last]) true cs 0 choice hch,
        hfin]
      cases hoc : choice.delta.content with
      | none =>
        have hts : textsOf (ch :: rest) = textsOf rest := by
          simp [textsOf, List.filterMap_cons, hch, hoc]
        rw [hts]
        simp only [chunkContentEvs, chunkStartEvs, if_pos, List.nil_append]
        exact ih cs hrest
      | some c =>
        by_cases hcc : c = ""
        · subst hcc
          have hts : textsOf (ch :: rest) = textsOf rest := by
            simp [textsOf, List.filterMap_cons, hch, hoc]
          rw [hts]
          simp only [chunkContentEvs, ne_eq, not_true_eq_false, if_false, chunkStartEvs,
            if_pos, List.nil_append]
          exact ih cs hrest
        · have hts : textsOf (ch :: rest) = c :: textsOf rest := by
            simp [textsOf, List.filterMap_cons, hch, hoc, hcc]
          rw [hts]
          simp only [chunkContentEvs, ne_eq, hcc, not_false_eq_true, if_true, chunkStartEvs,
            List.nil_append, textEvents]
          rw [ih true hrest]
          simp [List.append_assoc]

theorem loop_last (last : Chunk) (choice : ChunkChoice) (fr : String) (cs : Bool)
    (hch : last.choices.head? = some choice) (hof : choice.finishReason = some fr)
    (hfr : fr ≠ "") :
    outputChunksLoop [last] true cs 0 =
      (chunkContentEvs cs 0 choice.delta.content).1 ++
      ((if (chunkContentEvs cs 0 choice.delta.content).2 then
          [Event.contentBlockStop 0] else []) ++
       [Event.messageDelta (some (mapFinishReason (some fr))), Event.messageStop]) := by
  rw [outputChunksLoop_cons_some last [] true cs 0 choice hch, outputChunksLoop_nil]
  simp only [chunkStartEvs, if_pos, List.nil_append, chunkFinishEvs, hof, ne_eq, hfr,
    not_false_eq_true, if_true, List.append_nil]

theorem splitDeltas_texts (L : List String) (R : List Event) :
    splitDeltas 0 BlockKind.textK
      (L.map (fun s => Event.contentBlockDelta 0 (DeltaEv.textDelta s)) ++
        Event.contentBlockStop 0 :: R) = (L.length, Event.contentBlockStop 0 :: R) := by
  induction L with
  | nil => rfl
  | cons s rest ih => simp [splitDeltas, deltaKind, ih]

theorem validTail_textBlock (l : List String) (t : String) (r : Option StopReason) :
    ∀ f : Nat, 2 ≤ f →
      validTail f false none
        (Event.contentBlockStart 0 (StartBlock.textS "") ::
          ((t :: l).map (fun s => Event.contentBlockDelta 0 (DeltaEv.textDelta s)) ++
           Event.contentBlockStop 0 ::
             [Event.messageDelta r, Event.messageStop])) = true := by
  intro f hf
  match f, hf with
  | Nat.succ (Nat.succ f3), _ =>
    simp only [validTail, startKind, List.map_cons, List.cons_append]
    rw [show Event.contentBlockDelta 0 (DeltaEv.textDelta t) ::
          (List.map (fun s => Event.contentBlockDelta 0 (DeltaEv.textDelta s)) l ++
            Event.contentBlockStop 0 :: [Event.messageDelta r, Event.messageStop]) =
        List.map (fun s => Event.contentBlockDelta 0 (DeltaEv.textDelta s)) (t :: l) ++
          Event.contentBlockStop 0 :: [Event.messageDelta r, Event.messageStop] from rfl,
      splitDeltas_texts (t :: l) [Event.messageDelta r, Event.messageStop]]
    simp [idxOk]

theorem validTail_mdms (r : Option StopReason) :
    ∀ f : Nat, 1 ≤ f →
      validTail f false none [Event.messageDelta r, Event.messageStop] = true := by
  intro f hf
  match f, hf with
  | Nat.succ f2, _ => rfl

theorem validStream_chunks_lastFinish (body : List Chunk) (last : Chunk)
    (hb : ∀ ch ∈ body, chunkFinish ch = false) (hl : chunkFinish last = true) :
    validStream (outputChunksAsStream (body ++ [last])) = true := by
  cases hch : last.choices.head? with
  | none =>
    simp only [chunkFinish, hch] at hl
    exact absurd hl (by simp)
  | some choice =>
    cases hof : choice.finishReason with
    | none =>
      simp only [chunkFinish, hch, hof] at hl
      exact absurd hl (by simp)
    | some fr =>
      simp only [chunkFinish, hch, hof] at hl
      have hfr : fr ≠ "" := of_decide_eq_true hl
      obtain ⟨ch0, rest0, hsplit⟩ : ∃ c r2, body ++ [last] = c :: r2 := by
        cases body with
        | nil => exact ⟨last, [], rfl⟩
        | cons x xs => exact ⟨x, xs ++ [last], rfl⟩
      rw [outputChunksAsStream, hsplit, loop_msgStart, ← hsplit]
      simp only [validStream]
      rw [loop_body_closed last body false hb,
        loop_last last choice fr _ hch hof hfr]
      cases hts : textsOf body with
      | nil =>
        simp only [textEvents, List.nil_append]
        cases hoc : choice.delta.content with
        | none =>
          simp only [chunkContentEvs, Bool.false_eq_true, if_false, List.nil_append]
          exact validTail_mdms _ _ (by simp)
        | some c =>
          by_cases hcc : c = ""
          · subst hcc
            simp only [chunkContentEvs, ne_eq, not_true_eq_false, Bool.false_eq_true,
              if_false, List.nil_append]
            exact validTail_mdms _ _ (by simp)
          · simp only [chunkContentEvs, ne_eq, hcc, not_false_eq_true, if_true,
              Bool.false_eq_true, if_false, List.nil_append]
            simpa using validTail_textBlock [] c (some (mapFinishReason (some fr))) _
              (by simp)
      | cons t ts2 =>
        simp only [textEvents, textEvents_true, Bool.false_eq_true, if_false,
          List.cons_append, List.nil_append]
        cases hoc : choice.delta.content with
        | none =>
          simp only [chunkContentEvs, if_true, List.nil_append]
          simpa using validTail_textBlock ts2 t (some (mapFinishReason (some fr))) _
            (by simp)
        | some c =>
          by_cases hcc : c = ""
          · subst hcc
            simp only [chunkContentEvs, ne_eq, not_true_eq_false, Bool.false_eq_true,
              if_false, if_true, List.nil_append]
            simpa using validTail_textBlock ts2 t (some (mapFinishReason (some fr))) _
              (by simp)
          · simp only [chunkContentEvs, ne_eq, hcc, not_false_eq_true, if_true,
              List.nil_append]
            simpa [List.map_append] using
              validTail_textBlock (ts2 ++ [c]) t (some (mapFinishReason (some fr))) _
                (by simp)

/-- C2 counterexample: a no-tool-call turn whose provider stream ends without
any finish reason emits a truncated sequence — no `content_block_stop`, no
`message_delta`, no terminating `message_stop` — so the emitted sequence is
not protocol-valid. -/
theorem stream_truncated_counterexample :
    transformStream demoNoFinishChunks =
      [Event.messageStart "m" none,
       Event.contentBlockStart 0 (StartBlock.textS ""),
       Event.contentBlockDelta 0 (DeltaEv.textDelta "hi")] ∧
    validStream (transformStream demoNoFinishChunks) = false := by
  constructor
  · decide
  · decide

/-- C2 amended: every event sequence emitted on the tool-call path —
including the internal-failure fallback — is protocol-valid (one leading
message_start, complete blocks with text before tool-use and strictly
increasing indices, then message_delta and message_stop), and the fallback
sequence itself is protocol-valid; on the no-tool-call path the emitted
sequence is protocol-valid provided the buffered chunk list is nonempty and
a truthy finish reason arrives exactly on the last chunk (when the provider
stream ends without a finish reason the sequence is truncated, as the
counterexample shows). -/
theorem stream_protocol_validity :
    (∀ chunks, hasToolCalls chunks = true →
      validStream (transformStream chunks) = true) ∧
    (∀ (body : List Chunk) (last : Chunk),
      hasToolCalls (body ++ [last]) = false →
      (∀ ch ∈ body, chunkFinish ch = false) → chunkFinish last = true →
      validStream (transformStream (body ++ [last])) = true) ∧
    validStream handleStreamErrorEvents = true := by
  refine ⟨fun chunks h => hasToolCalls_stream_valid chunks h, ?_, validStream_error_events⟩
  intro body last hnt hb hl
  have hts : transformStream (body ++ [last]) = outputChunksAsStream (body ++ [last]) := by
    rw [transformStream, if_neg (by simp [hnt])]
  rw [hts]
  exact validStream_chunks_lastFinish body last hb hl

/-- C2 witness: the tool-call demo turn and the two-chunk text turn both
emit protocol-valid sequences. -/
theorem stream_protocol_validity_witness :
    validStream (transformStream demoToolChunks) = true ∧
    validStream (transformStream (demoTextBody ++ [demoTextLast])) = true :=
  ⟨stream_protocol_validity.1 demoToolChunks rfl,
   stream_protocol_validity.2.1 demoTextBody demoTextLast rfl (by decide) rfl⟩

theorem append_empty_str (s : String) : s ++ "" = s := by
  cases s with
  | mk data =>
    show String.mk (data ++ []) = String.mk data
    rw [List.append_nil]

theorem chunkText_textsOf (ch : Chunk) (rest : List Chunk) :
    concatAll (textsOf (ch :: rest)) = chunkText ch ++ concatAll (textsOf rest) := by
  cases hch : ch.choices.head? with
  | none =>
    simp only [textsOf, List.filterMap_cons, hch, chunkText]
    rw [empty_append_str]
  | some choice =>
    cases hoc : choice.delta.content with
    | none =>
      simp only [textsOf, List.filterMap_cons, hch, hoc, chunkText]
      rw [empty_append_str]
    | some c =>
      by_cases hcc : c = ""
      · subst hcc
        simp only [textsOf, List.filterMap_cons, hch, hoc, chunkText, ne_eq,
          not_true_eq_false, if_false]
        rw [empty_append_str]
      · simp only [textsOf, List.filterMap_cons, hch, hoc, chunkText, ne_eq, hcc,
          not_false_eq_true, if_true]
        rfl

theorem allDeltas_cons (ch : Chunk) (rest : List Chunk) :
    allDeltas (ch :: rest) = chunkDeltas ch ++ allDeltas rest := by
  simp [allDeltas]

theorem reconStep_spec (st : ReconState) (ch : Chunk) :
    reconStep st ch =
      ⟨st.content ++ chunkText ch,
       (chunkDeltas ch).foldl accumToolCall st.callMap,
       lastFinishStep st.finishReason ch⟩ := by
  cases hch : ch.choices.head? with
  | none =>
    simp [reconStep, chunkText, chunkDeltas, lastFinishStep, hch, append_empty_str]
  | some choice =>
    rcases choice with ⟨⟨oc, otc⟩, ofr⟩
    cases oc <;> cases otc <;> cases ofr <;>
      simp only [reconStep, chunkText, chunkDeltas, lastFinishStep, hch,
        Option.getD_some, Option.getD_none, List.foldl_nil] <;>
      (try split_ifs) <;>
      simp [append_empty_str]

theorem reconFold_spec (chunks : List Chunk) :
    ∀ st : ReconState,
      chunks.foldl reconStep st =
        ⟨st.content ++ concatAll (textsOf chunks),
         (allDeltas chunks).foldl accumToolCall st.callMap,
         chunks.foldl lastFinishStep st.finishReason⟩ := by
  induction chunks with
  | nil =>
    intro st
    simp only [List.foldl_nil, textsOf, List.filterMap_nil, allDeltas, List.map_nil,
      List.flatten_nil, concatAll, List.foldr_nil]
    rw [append_empty_str]
  | cons ch rest ih =>
    intro st
    simp only [List.foldl_cons]
    rw [reconStep_spec st ch, ih]
    rw [chunkText_textsOf, allDeltas_cons, List.foldl_append]
    rw [String.append_assoc]

theorem mem_keysOf (ds : List ToolCallDelta) (i : Nat) :
    i ∈ keysOf ds ↔ ∃ tc ∈ ds, deltaIdx tc = i := by
  suffices h : ∀ ks, i ∈ ds.foldl keysStep ks ↔ i ∈ ks ∨ ∃ tc ∈ ds, deltaIdx tc = i by
    simpa [keysOf] using h []
  induction ds with
  | nil => intro ks; simp
  | cons d rest ih =>
    intro ks
    simp only [List.foldl_cons]
    rw [ih (keysStep ks d)]
    constructor
    · rintro (hk | he)
      · rw [keysStep] at hk
        split_ifs at hk with hd
        · exact Or.inl hk
        · rcases List.mem_append.mp hk with h1 | h1
          · exact Or.inl h1
          · right
            exact ⟨d, List.mem_cons_self _ _, (List.mem_singleton.mp h1).symm⟩
      · obtain ⟨tc, htc, hi⟩ := he
        right
        exact ⟨tc, List.mem_cons_of_mem _ htc, hi⟩
    · rintro (hk | ⟨tc, htc, hi⟩)
      · left
        rw [keysStep]
        split_ifs with hd
        · exact hk
        · exact List.mem_append.mpr (Or.inl hk)
      · rcases List.mem_cons.mp htc with rfl | h2
        · left
          rw [keysStep]
          split_ifs with hd
          · rw [hi] at hd
            exact hd
          · rw [hi]
            exact List.mem_append.mpr (Or.inr (List.mem_singleton.mpr rfl))
        · right
          exact ⟨tc, h2, hi⟩

theorem keysOf_nodup (ds : List ToolCallDelta) : (keysOf ds).Nodup := by
  suffices h : ∀ ks : List Nat, ks.Nodup → (ds.foldl keysStep ks).Nodup from
    h [] List.nodup_nil
  induction ds with
  | nil => intro ks h; exact h
  | cons d rest ih =>
    intro ks h
    simp only [List.foldl_cons]
    apply ih
    rw [keysStep]
    split_ifs with hd
    · exact h
    · simp [List.nodup_append, h, hd]

theorem mapGet_keyed (g : Nat → ToolCallAcc) :
    ∀ (ks : List Nat) (i : Nat),
      mapGet (ks.map (fun j => (j, g j))) i = if i ∈ ks then some (g i) else none := by
  intro ks
  induction ks with
  | nil => intro i; simp [mapGet]
  | cons j rest ih =>
    intro i
    have hrec := ih i
    simp only [mapGet, List.map_cons, List.find?_cons] at hrec ⊢
    by_cases hj : j = i
    · subst hj
      simp
    · have hd : decide (j = i) = false := by simp [hj]
      simp only [hd, Bool.false_eq_true, if_false]
      rw [hrec]
      have hij : ¬ i = j := fun h => hj h.symm
      simp [List.mem_cons, hij]

theorem mapSet_keyed (g : Nat → ToolCallAcc) (v : ToolCallAcc) :
    ∀ (ks : List Nat) (i : Nat), ks.Nodup → i ∈ ks →
      mapSet (ks.map (fun j => (j, g j))) i v =
        ks.map (fun j => (j, if j = i then v else g j)) := by
  intro ks
  induction ks with
  | nil => intro i _ hmem; cases hmem
  | cons j rest ih =>
    intro i hnd hmem
    simp only [List.map_cons, mapSet]
    by_cases hj : j = i
    · subst hj
      have hji : ∀ a ∈ rest, a ≠ j := fun a ha he =>
        (List.nodup_cons.mp hnd).1 (he ▸ ha)
      simp only [if_pos rfl, eq_self_iff_true, if_true, List.cons.injEq, true_and]
      apply List.map_congr_left
      intro a ha
      rw [if_neg (hji a ha)]
    · rw [if_neg hj, if_neg hj]
      rcases List.mem_cons.mp hmem with rfl | h2
      · exact absurd rfl hj
      · rw [ih i (List.nodup_cons.mp hnd).2 h2]

theorem mapSet_notmem_append (i : Nat) (v : ToolCallAcc) :
    ∀ (m l : List (Nat × ToolCallAcc)), (∀ p ∈ m, p.1 ≠ i) →
      mapSet (m ++ l) i v = m ++ mapSet l i v := by
  intro m
  induction m with
  | nil => intro l _; rfl
  | cons p rest ih =>
    intro l h
    rcases p with ⟨j, w⟩
    have hji : ¬ j = i := h (j, w) (List.mem_cons_self _ _)
    have hrest : ∀ q ∈ rest, q.1 ≠ i := fun q hq => h q (List.mem_cons_of_mem _ hq)
    show mapSet ((j, w) :: (rest ++ l)) i v = (j, w) :: (rest ++ mapSet l i v)
    simp only [mapSet, if_neg hji]
    rw [ih l hrest]

theorem filter_idx_append (ds : List ToolCallDelta) (d : ToolCallDelta) (i : Nat) :
    (ds ++ [d]).filter (fun tc => deltaIdx tc = i) =
      ds.filter (fun tc => deltaIdx tc = i) ++ (if deltaIdx d = i then [d] else []) := by
  rw [List.filter_append]
  by_cases hd : deltaIdx d = i <;> simp [List.filter_cons, hd]

theorem nameAt_append (i : Nat) (ds : List ToolCallDelta) (d : ToolCallDelta) :
    nameAt i (ds ++ [d]) =
      if deltaIdx d = i then nameStep (nameAt i ds) d else nameAt i ds := by
  rw [nameAt, filter_idx_append, List.foldl_append]
  by_cases hd : deltaIdx d = i
  · rw [if_pos hd, if_pos hd, List.foldl_cons, List.foldl_nil, nameAt]
  · rw [if_neg hd, if_neg hd, List.foldl_nil, nameAt]

theorem argsAt_append (i : Nat) (ds : List ToolCallDelta) (d : ToolCallDelta) :
    argsAt i (ds ++ [d]) =
      if deltaIdx d = i then argsStep (argsAt i ds) d else argsAt i ds := by
  rw [argsAt, filter_idx_append, List.foldl_append]
  by_cases hd : deltaIdx d = i
  · rw [if_pos hd, if_pos hd, List.foldl_cons, List.foldl_nil, argsAt]
  · rw [if_neg hd, if_neg hd, List.foldl_nil, argsAt]

theorem idAt_append (i : Nat) (ds : List ToolCallDelta) (d : ToolCallDelta) :
    idAt i (ds ++ [d]) =
      if ds.filter (fun tc => deltaIdx tc = i) = [] then
        (if deltaIdx d = i then deltaId d i else idAt i ds)
      else idAt i ds := by
  rw [idAt, filter_idx_append]
  by_cases hfil : ds.filter (fun tc => deltaIdx tc = i) = []
  · rw [if_pos hfil, hfil, List.nil_append]
    by_cases hd : deltaIdx d = i
    · rw [if_pos hd, if_pos hd]
      rfl
    · rw [if_neg hd, if_neg hd, idAt, hfil]
  · rw [if_neg hfil]
    cases hx : ds.filter (fun tc => deltaIdx tc = i) with
    | nil => exact absurd hx hfil
    | cons x xs =>
      rw [List.cons_append, idAt, hx]
      rfl

theorem nameAt_of_empty (i : Nat) (ds : List ToolCallDelta)
    (h : ds.filter (fun tc => deltaIdx tc = i) = []) : nameAt i ds = "" := by
  rw [nameAt, h]
  rfl

theorem argsAt_of_empty (i : Nat) (ds : List ToolCallDelta)
    (h : ds.filter (fun tc => deltaIdx tc = i) = []) : argsAt i ds = "" := by
  rw [argsAt, h]
  rfl

theorem applyDelta_spec (cur : ToolCallAcc) (d : ToolCallDelta) :
    applyDelta cur d = ⟨cur.id, nameStep cur.name d, argsStep cur.arguments d⟩ := by
  rcases cur with ⟨cid, cname, cargs⟩
  cases hn : d.name <;> cases ha : d.arguments <;>
    simp only [applyDelta, nameStep, argsStep, hn, ha] <;>
    (try split_ifs) <;> rfl

theorem keysOf_append (ds : List ToolCallDelta) (d : ToolCallDelta) :
    keysOf (ds ++ [d]) = keysStep (keysOf ds) d := by
  rw [keysOf, List.foldl_append, List.foldl_cons, List.foldl_nil, keysOf]

theorem find?_none_of_mapGet_none (m : List (Nat × ToolCallAcc)) (i : Nat)
    (h : mapGet m i = none) : m.find? (fun p => p.1 = i) = none := by
  rw [mapGet] at h
  cases hf : m.find? (fun p => p.1 = i) with
  | none => rfl
  | some p => rw [hf] at h; cases h

theorem accum_spec (ds : List ToolCallDelta) :
    ds.foldl accumToolCall [] = (keysOf ds).map (fun i => (i, accAt ds i)) := by
  induction ds using List.reverseRecOn with
  | nil => rfl
  | append_singleton ds d ih =>
    rw [List.foldl_append, List.foldl_cons, List.foldl_nil, ih, keysOf_append]
    have hnodup := keysOf_nodup ds
    by_cases hmem : deltaIdx d ∈ keysOf ds
    · have hfil : ds.filter (fun tc => deltaIdx tc = deltaIdx d) ≠ [] := by
        rw [Ne, List.filter_eq_nil_iff]
        obtain ⟨tc, htc, hid⟩ := (mem_keysOf ds (deltaIdx d)).mp hmem
        intro hall
        exact hall tc htc (by simpa using hid)
      rw [keysStep, if_pos hmem]
      have hget : mapGet ((keysOf ds).map (fun i => (i, accAt ds i))) (deltaIdx d) =
          some (accAt ds (deltaIdx d)) := by
        rw [mapGet_keyed (accAt ds), if_pos hmem]
      simp only [accumToolCall]
      rw [hget]
      simp only [Option.isSome_some, if_true]
      rw [hget]
      show mapSet ((keysOf ds).map (fun i => (i, accAt ds i))) (deltaIdx d)
          (applyDelta (accAt ds (deltaIdx d)) d) =
        (keysOf ds).map (fun i => (i, accAt (ds ++ [d]) i))
      rw [applyDelta_spec,
        mapSet_keyed (accAt ds) _ (keysOf ds) (deltaIdx d) hnodup hmem]
      apply List.map_congr_left
      intro j hj
      by_cases hji : j = deltaIdx d
      · subst hji
        rw [if_pos rfl]
        simp only [accAt]
        rw [idAt_append, if_neg hfil, nameAt_append, if_pos rfl, argsAt_append, if_pos rfl]
      · have hdj : ¬ deltaIdx d = j := fun h => hji h.symm
        rw [if_neg hji]
        simp only [accAt]
        rw [idAt_append, nameAt_append, argsAt_append]
        simp [hdj]
    · have hfil : ds.filter (fun tc => deltaIdx tc = deltaIdx d) = [] := by
        rw [List.filter_eq_nil_iff]
        intro tc htc hpc
        exact hmem ((mem_keysOf ds (deltaIdx d)).mpr ⟨tc, htc, by simpa using hpc⟩)
      rw [keysStep, if_neg hmem]
      have hget : mapGet ((keysOf ds).map (fun i => (i, accAt ds i))) (deltaIdx d) = none := by
        rw [mapGet_keyed (accAt ds), if_neg hmem]
      simp only [accumToolCall]
      rw [hget]
      simp only [Option.isSome_none, Bool.false_eq_true, if_false]
      have hfind : ((keysOf ds).map (fun i => (i, accAt ds i))).find?
          (fun p => p.1 = deltaIdx d) = none := find?_none_of_mapGet_none _ _ hget
      have hget2 : mapGet ((keysOf ds).map (fun i => (i, accAt ds i)) ++
          [(deltaIdx d, (⟨deltaId d (deltaIdx d), "", ""⟩ : ToolCallAcc))]) (deltaIdx d) =
          some ⟨deltaId d (deltaIdx d), "", ""⟩ := by
        rw [mapGet, find?_append_of_none _ _ _ hfind]
        simp [List.find?_cons]
      rw [hget2]
      show mapSet ((keysOf ds).map (fun i => (i, accAt ds i)) ++
          [(deltaIdx d, (⟨deltaId d (deltaIdx d), "", ""⟩ : ToolCallAcc))]) (deltaIdx d)
          (applyDelta ⟨deltaId d (deltaIdx d), "", ""⟩ d) =
        (keysOf ds ++ [deltaIdx d]).map (fun i => (i, accAt (ds ++ [d]) i))
      rw [applyDelta_spec]
      have hne : ∀ p ∈ (keysOf ds).map (fun i => (i, accAt ds i)), p.1 ≠ deltaIdx d := by
        intro p hp
        obtain ⟨j, hj, rfl⟩ := List.mem_map.mp hp
        intro he
        exact hmem (he ▸ hj)
      rw [mapSet_notmem_append _ _ _ _ hne]
      rw [show mapSet [(deltaIdx d, (⟨deltaId d (deltaIdx d), "", ""⟩ : ToolCallAcc))]
          (deltaIdx d)
          (⟨(⟨deltaId d (deltaIdx d), "", ""⟩ : ToolCallAcc).id,
            nameStep (⟨deltaId d (deltaIdx d), "", ""⟩ : ToolCallAcc).name d,
            argsStep (⟨deltaId d (deltaIdx d), "", ""⟩ : ToolCallAcc).arguments d⟩ : ToolCallAcc) =
          [(deltaIdx d,
            (⟨deltaId d (deltaIdx d), nameStep "" d, argsStep "" d⟩ : ToolCallAcc))] from by
        simp [mapSet]]
      rw [List.map_append]
      congr 1
      · apply List.map_congr_left
        intro j hj
        have hdj : ¬ deltaIdx d = j := by
          intro he
          exact hmem (he ▸ hj)
        simp only [accAt]
        rw [idAt_append, nameAt_append, argsAt_append]
        simp [hdj]
      · simp only [List.map_cons, List.map_nil, accAt]
        rw [idAt_append, if_pos hfil, if_pos rfl, nameAt_append, if_pos rfl,
          argsAt_append, if_pos rfl, nameAt_of_empty _ _ hfil, argsAt_of_empty _ _ hfil]

theorem seqOpts_map_some (l : List ToolCallAcc) : seqOpts (l.map some) = some l := by
  induction l with
  | nil => rfl
  | cons a rest ih => simp [seqOpts, ih]

theorem setSparse_at_length (arr : List (Option ToolCallAcc)) (v : ToolCallAcc) :
    setSparse arr arr.length v = arr ++ [some v] := by
  rw [setSparse, if_neg (lt_irrefl _)]
  simp

theorem buildSparse_go (g : Nat → ToolCallAcc) :
    ∀ (n : Nat) (arr : List (Option ToolCallAcc)),
      ((List.range' arr.length n).map (fun j => (j, g j))).foldl
          (fun a p => setSparse a p.1 p.2) arr =
        arr ++ (List.range' arr.length n).map (fun j => some (g j)) := by
  intro n
  induction n with
  | zero => intro arr; simp [List.range']
  | succ n2 ih =>
    intro arr
    rw [show List.range' arr.length (n2 + 1) = arr.length :: List.range' (arr.length + 1) n2
      from rfl]
    rw [List.map_cons, List.foldl_cons]
    show (((List.range' (arr.length + 1) n2).map (fun j => (j, g j))).foldl
        (fun a p => setSparse a p.1 p.2) (setSparse arr arr.length (g arr.length))) = _
    rw [setSparse_at_length]
    have hlen : arr.length + 1 = (arr ++ [some (g arr.length)]).length := by simp
    rw [hlen, ih (arr ++ [some (g arr.length)])]
    simp [List.append_assoc]

theorem buildSparse_range (g : Nat → ToolCallAcc) (k : Nat) :
    buildSparse ((List.range k).map (fun j => (j, g j))) =
      (List.range k).map (fun j => some (g j)) := by
  rw [buildSparse, List.range_eq_range']
  have := buildSparse_go g k []
  simpa using this

/-- C1 counterexample: a single chunk whose only tool-call delta addresses
index 1 (no index 0 anywhere in the turn).  The sparse tool-call array gets
a hole, iterating it throws, and the engine emits the fallback error
sequence — no tool_use block at all — contradicting the claim as stated. -/
theorem toolCall_hole_counterexample :
    hasToolCalls demoHoleChunks = true ∧
    transformStream demoHoleChunks = handleStreamErrorEvents :=
  ⟨by decide, by decide⟩

/-- C1 amended: for every streaming turn in which at least one buffered
chunk carries a tool-call delta and the distinct tool-call indices, in first
occurrence order, are exactly 0..k-1, the engine reconstructs one complete
provider response by folding all buffered chunks — concatenating truthy text
deltas in arrival order and, per index, keeping the id of the first delta,
the last truthy name fragment and the concatenation of the truthy argument
fragments in arrival order — and re-emits it as a canonical event sequence:
each tool_use block carries the accumulated name and, as its input, the
structured JSON value obtained by repairing the joined argument string (the
empty string defaulting to the empty object literal); the stop reason is the
mapped last finish reason.  When an index is skipped the sparse
reconstruction throws instead and the fallback error sequence is emitted
(see the counterexample). -/
theorem toolCalls_stream_reconstruction (chunks : List Chunk) (k : Nat)
    (h : hasToolCalls chunks = true)
    (hk : keysOf (allDeltas chunks) = List.range k) :
    ∃ msg : ClaudeMessage,
      transformStream chunks = outputClaudeMessageAsStream msg ∧
      msg.content =
        (if concatAll (textsOf chunks) = "" then []
         else [ClaudeBlock.textB (concatAll (textsOf chunks))]) ++
        (List.range k).map (fun i =>
          ClaudeBlock.toolUseB (idAt i (allDeltas chunks)) (nameAt i (allDeltas chunks))
            (fixToolCallArguments
              (if argsAt i (allDeltas chunks) = "" then lbS ++ rbS
               else argsAt i (allDeltas chunks)))) ∧
      msg.stopReason = mapFinishReason (lastFinish chunks) := by
  have hne : chunks ≠ [] := by
    intro he
    rw [he] at h
    simp [hasToolCalls] at h
  obtain ⟨first, rest, hcons⟩ : ∃ f r, chunks = f :: r := by
    cases chunks with
    | nil => exact absurd rfl hne
    | cons f r => exact ⟨f, r, rfl⟩
  have hhead : chunks.head? = some first := by
    rw [hcons]
    rfl
  have hcall : (allDeltas chunks).foldl accumToolCall [] =
      (List.range k).map (fun i => (i, accAt (allDeltas chunks) i)) := by
    rw [accum_spec, hk]
  have hrc : reconstructCompletionFromChunks chunks = some
      ⟨first.model,
       if concatAll (textsOf chunks) = "" then none
       else some (concatAll (textsOf chunks)),
       if k > 0 then some ((List.range k).map (fun i => some (accAt (allDeltas chunks) i)))
       else none,
       lastFinish chunks⟩ := by
    rw [reconstructCompletionFromChunks]
    simp only [hhead]
    rw [reconFold_spec chunks ⟨"", [], none⟩]
    simp only [empty_append_str, hcall, buildSparse_range (accAt (allDeltas chunks)) k,
      List.length_map, List.length_range]
    rfl
  have htr : transformResponse
      ⟨first.model,
       if concatAll (textsOf chunks) = "" then none
       else some (concatAll (textsOf chunks)),
       if k > 0 then some ((List.range k).map (fun i => some (accAt (allDeltas chunks) i)))
       else none,
       lastFinish chunks⟩ = some
      ⟨first.model,
       (if concatAll (textsOf chunks) = "" then []
        else [ClaudeBlock.textB (concatAll (textsOf chunks))]) ++
       (List.range k).map (fun i =>
         ClaudeBlock.toolUseB (idAt i (allDeltas chunks)) (nameAt i (allDeltas chunks))
           (fixToolCallArguments
             (if argsAt i (allDeltas chunks) = "" then lbS ++ rbS
              else argsAt i (allDeltas chunks)))),
       mapFinishReason (lastFinish chunks)⟩ := by
    have htext : (match (if concatAll (textsOf chunks) = "" then none
        else some (concatAll (textsOf chunks)) : Option String) with
        | some c => if c ≠ "" then [ClaudeBlock.textB c] else []
        | none => ([] : List ClaudeBlock)) =
        (if concatAll (textsOf chunks) = "" then []
         else [ClaudeBlock.textB (concatAll (textsOf chunks))]) := by
      by_cases ht : concatAll (textsOf chunks) = ""
      · rw [if_pos ht, if_pos ht]
      · rw [if_neg ht, if_neg ht]
        simp [ht]
    have hmapeq : (List.range k).map (fun i => some (accAt (allDeltas chunks) i)) =
        ((List.range k).map (fun i => accAt (allDeltas chunks) i)).map some := by
      rw [List.map_map]
      rfl
    cases Nat.eq_zero_or_pos k with
    | inl h0 =>
      subst h0
      simp only [gt_iff_lt, lt_irrefl, if_false, transformResponse, List.range_zero,
        List.map_nil, List.append_nil]
      rw [htext]
    | inr hpos =>
      simp only [gt_iff_lt, hpos, if_true, transformResponse]
      rw [hmapeq, seqOpts_map_some]
      simp only [List.map_map]
      rw [htext]
      rfl
  refine ⟨⟨first.model,
    (if concatAll (textsOf chunks) = "" then []
     else [ClaudeBlock.textB (concatAll (textsOf chunks))]) ++
    (List.range k).map (fun i =>
      ClaudeBlock.toolUseB (idAt i (allDeltas chunks)) (nameAt i (allDeltas chunks))
        (fixToolCallArguments
          (if argsAt i (allDeltas chunks) = "" then lbS ++ rbS
           else argsAt i (allDeltas chunks)))),
    mapFinishReason (lastFinish chunks)⟩, ?_, rfl, rfl⟩
  rw [transformStream, if_pos h]
  simp only [hrc, htr]

/-- C1 witness: the demo tool-call turn — text, then a tool call at index 0
whose single-quoted argument fragments join to a repairable object. -/
theorem toolCalls_stream_reconstruction_witness :
    ∃ msg : ClaudeMessage,
      transformStream demoToolChunks = outputClaudeMessageAsStream msg ∧
      msg.content =
        (if concatAll (textsOf demoToolChunks) = "" then []
         else [ClaudeBlock.textB (concatAll (textsOf demoToolChunks))]) ++
        (List.range 1).map (fun i =>
          ClaudeBlock.toolUseB (idAt i (allDeltas demoToolChunks))
            (nameAt i (allDeltas demoToolChunks))
            (fixToolCallArguments
              (if argsAt i (allDeltas demoToolChunks) = "" then lbS ++ rbS
               else argsAt i (allDeltas demoToolChunks)))) ∧
      msg.stopReason = mapFinishReason (lastFinish demoToolChunks) :=
  toolCalls_stream_reconstruction demoToolChunks 1 rfl (by decide)

end Relay
